import Mathlib

/-!
# Oklab value type (`includes/Oklab.hpp`)

A shallow embedding of the `Oklab` colour value type and of the library
behaviour its inline members rely on.

* A `double` is an IEEE-754 binary64 bit pattern split into its three fields.
  Comparison, addition, subtraction and multiplication are defined on the bit
  patterns (round to nearest, ties to even), so that `==`, `!=` and the
  arithmetic of `lerp` have their exact meaning: NaN is unordered, the two
  zeros compare equal, results are rounded.
* `Oklab` is the struct of four `double`s with its constructors, `operator==`,
  `operator!=`, `operator<<`, `operator>>`, the `fmt` formatter and
  `std::hash<Oklab>`.  Members that the header only declares (`lerp`, `hash`,
  `removeSRGBCurve`, `applySRGBCurve`) are modelled from the specification and
  marked as such; the two sRGB curves are given per channel, once in `double`
  arithmetic with the power function as a parameter and once in exact real
  arithmetic.
* Streams are character lists.  The number rendering of the output stream is the
  `%g` conversion with precision 6; the number extraction of the input stream
  is the decimal grammar of `num_get` with a correctly rounded conversion.
* The formatting library is a small interpreter of format strings, with the
  rendering of one number left as a parameter.

Definitions come first, lemmas and the statements about the type follow.
-/

set_option exponentiation.threshold 4000

namespace SivOklab

/-! ## IEEE-754 binary64 -/

/-- A `double`: sign bit, 11-bit biased exponent, 52-bit trailing significand. -/
structure F64 where
  sign : Bool
  expo : Fin 2048
  mant : Fin 4503599627370496
deriving DecidableEq, Repr

namespace F64

/-- The raw 64-bit pattern of a `double`. -/
def bits (x : F64) : Nat :=
  (if x.sign then 9223372036854775808 else 0) + x.expo.val * 4503599627370496 + x.mant.val

/-- NaN: exponent all ones, non-zero trailing significand. -/
def isNaN (x : F64) : Bool := x.expo.val == 2047 && x.mant.val != 0

/-- Infinity: exponent all ones, zero trailing significand. -/
def isInf (x : F64) : Bool := x.expo.val == 2047 && x.mant.val == 0

/-- Either zero, `+0.0` or `-0.0`. -/
def isZero (x : F64) : Bool := x.expo.val == 0 && x.mant.val == 0

/-- Neither NaN nor an infinity. -/
def isFinite (x : F64) : Bool := x.expo.val != 2047

/-- The literal `0.0`. -/
def zero : F64 := ⟨false, 0, 0⟩

/-- The value `-0.0`. -/
def negZero : F64 := ⟨true, 0, 0⟩

/-- The literal `1.0`. -/
def one : F64 := ⟨false, 1023, 0⟩

/-- A quiet NaN. -/
def nan : F64 := ⟨false, 2047, 2251799813685248⟩

/-- Positive infinity. -/
def inf : F64 := ⟨false, 2047, 0⟩

/-- Magnitude key: for non-NaN values the order of magnitudes is the order of
the exponent and significand fields read as one integer. -/
def magKey (x : F64) : Nat := x.expo.val * 4503599627370496 + x.mant.val

/-- Signed key of a non-NaN value; both zeros get key `0`. -/
def key (x : F64) : Int := if x.sign then - (x.magKey : Int) else (x.magKey : Int)

/-- The four mutually exclusive relations of an IEEE-754 comparison. -/
inductive Rel where
  | less
  | equal
  | greater
  | unordered
deriving DecidableEq, Repr

/-- IEEE-754 comparison of two `double`s. -/
def compare (x y : F64) : Rel :=
  if x.isNaN || y.isNaN then Rel.unordered
  else if x.key < y.key then Rel.less
  else if y.key < x.key then Rel.greater
  else Rel.equal

/-- The C++ expression `x == y` on `double`s: true for the relation "equal" only. -/
def eq (x y : F64) : Bool :=
  match compare x y with
  | Rel.equal => true
  | _ => false

/-- The C++ expression `x != y` on `double`s: true for the relations "less",
"greater" and "unordered". -/
def ne (x y : F64) : Bool :=
  match compare x y with
  | Rel.less => true
  | Rel.greater => true
  | Rel.unordered => true
  | Rel.equal => false

/-! ### Arithmetic (round to nearest, ties to even) -/

/-- Magnitude of a finite value as an integer count of units of `2^-1074`
(the smallest subnormal). -/
def magUnits (x : F64) : Nat :=
  if x.expo.val = 0 then x.mant.val
  else (4503599627370496 + x.mant.val) * 2 ^ (x.expo.val - 1)

/-- Signed value of a finite `double` in units of `2^-1074`. -/
def toUnits (x : F64) : Int :=
  if x.sign then - (x.magUnits : Int) else (x.magUnits : Int)

/-- Nearest integer to `t / d`, ties to even. -/
def roundHalfEven (t d : Nat) : Nat :=
  let q := t / d
  let r := t % d
  if 2 * r < d then q
  else if d < 2 * r then q + 1
  else if q % 2 = 0 then q else q + 1

/-- The `double` of sign `sign` whose exponent and significand fields, read as
one integer, are `k`; an infinity when `k` is beyond the largest finite value. -/
def ofMagKey (sign : Bool) (k : Nat) : F64 :=
  if h : k < 2047 * 4503599627370496 then
    ⟨sign, ⟨k / 4503599627370496, by omega⟩, ⟨k % 4503599627370496, by omega⟩⟩
  else ⟨sign, 2047, 0⟩

/-- Binary search for the number of low bits to drop: `shiftSearch u j k`
refines `k` with the steps `2^(j-1), ..., 2, 1`, keeping `2^(52+k) ≤ u`. -/
def shiftSearch (u : Nat) : Nat → Nat → Nat
  | 0, k => k
  | j + 1, k => shiftSearch u j (if 2 ^ (52 + k + 2 ^ j) ≤ u then k + 2 ^ j else k)

/-- The largest `k < 4096` with `2^(52+k) ≤ u`, and `0` when `u < 2^53`. -/
def shiftOf (u : Nat) : Nat := shiftSearch u 12 0

/-- Round the non-negative rational `t / d`, counted in units of `2^-1074`, to
the nearest `double` of sign `sign`.  With `k` the number of low bits to drop
and `m ≤ 2^53` the rounded significand, the result has exponent and significand
fields `k * 2^52 + m` (this covers subnormals, where `k = 0` and `m < 2^52`, and
the carry `m = 2^53` into the next binade). -/
def roundMag (sign : Bool) (t d : Nat) : F64 :=
  let k := shiftOf (t / d)
  let m := roundHalfEven t (d * 2 ^ k)
  ofMagKey sign (k * 4503599627370496 + m)

/-- Unary minus. -/
def neg (x : F64) : F64 := ⟨!x.sign, x.expo, x.mant⟩

/-- The C++ expression `x + y` on `double`s.  Every NaN result is represented
by the one quiet NaN `F64.nan`. -/
def add (x y : F64) : F64 :=
  if x.isNaN || y.isNaN then nan
  else if x.isInf then (if y.isInf && (x.sign != y.sign) then nan else x)
  else if y.isInf then y
  else
    let s : Int := x.toUnits + y.toUnits
    if s = 0 then ⟨x.sign && y.sign, 0, 0⟩
    else roundMag (decide (s < 0)) s.natAbs 1

/-- The C++ expression `x - y` on `double`s. -/
def sub (x y : F64) : F64 := add x (neg y)

/-- The C++ expression `x * y` on `double`s; the exact product of two finite
values is counted in units of `2^-2148`. -/
def mul (x y : F64) : F64 :=
  if x.isNaN || y.isNaN then nan
  else if x.isInf || y.isInf then
    (if x.isZero || y.isZero then nan else ⟨x.sign != y.sign, 2047, 0⟩)
  else roundMag (x.sign != y.sign) (x.magUnits * y.magUnits) (2 ^ 1074)

/-- The C++ expression `x / y` on `double`s; the exact quotient of two finite
values, `y` not a zero, is `x.magUnits / y.magUnits`, that is
`x.magUnits * 2^1074 / y.magUnits` units of `2^-1074`. -/
def div (x y : F64) : F64 :=
  if x.isNaN || y.isNaN then nan
  else if x.isInf then (if y.isInf then nan else ⟨x.sign != y.sign, 2047, 0⟩)
  else if y.isInf then ⟨x.sign != y.sign, 0, 0⟩
  else if y.isZero then (if x.isZero then nan else ⟨x.sign != y.sign, 2047, 0⟩)
  else roundMag (x.sign != y.sign) (x.magUnits * 2 ^ 1074) y.magUnits

/-- The C++ expression `x <= y` on `double`s: true for the relations "less" and
"equal". -/
def le (x y : F64) : Bool :=
  match compare x y with
  | Rel.less => true
  | Rel.equal => true
  | _ => false

end F64

/-! ## Vectors and the Oklab value -/

/-- The engine's `Vec3` (three `double` components). -/
structure Vec3 where
  x : F64
  y : F64
  z : F64
deriving DecidableEq, Repr

/-- The engine's `Vec4` (four `double` components). -/
structure Vec4 where
  x : F64
  y : F64
  z : F64
  w : F64
deriving DecidableEq, Repr

/-- The `Oklab` struct: four `double` members in declaration order. -/
structure Oklab where
  l : F64
  a : F64
  b : F64
  alpha : F64
deriving DecidableEq, Repr

namespace Oklab

/-- The default member initializer of `alpha` (`double alpha = 1.0;`). -/
def alphaInit : F64 := F64.one

/-- `Oklab() = default;` : `l`, `a`, `b` have no initializer, so they keep
whatever value the storage is initialized with (`l0`, `a0`, `b0`; zero under
value-initialization); `alpha` takes its default member initializer. -/
def default (l0 a0 b0 : F64) : Oklab := ⟨l0, a0, b0, alphaInit⟩

/-- `Oklab(double _l, double _a, double _b, double _alpha = 1.0)`; `none`
stands for a call that omits the last argument. -/
def ofScalars (l a b : F64) (alpha : Option F64) : Oklab :=
  ⟨l, a, b, alpha.getD F64.one⟩

/-- `Oklab(const Oklab& oklab, double _alpha)`. -/
def withAlphaOf (oklab : Oklab) (alpha : F64) : Oklab :=
  ⟨oklab.l, oklab.a, oklab.b, alpha⟩

/-- `Oklab(const Vec3& oklab, double _alpha)`. -/
def ofVec3 (oklab : Vec3) (alpha : F64) : Oklab :=
  ⟨oklab.x, oklab.y, oklab.z, alpha⟩

/-- `Oklab(const Vec4& oklabWithAlpha)`: the member initializer list reads
`alpha{ oklabWithAlpha.z }`. -/
def ofVec4 (oklabWithAlpha : Vec4) : Oklab :=
  ⟨oklabWithAlpha.x, oklabWithAlpha.y, oklabWithAlpha.z, oklabWithAlpha.z⟩

/-- `operator ==(const Oklab& lhs, const Oklab& rhs)`. -/
def opEq (lhs rhs : Oklab) : Bool :=
  (F64.eq lhs.l rhs.l)
    && (F64.eq lhs.a rhs.a)
    && (F64.eq lhs.b rhs.b)
    && (F64.eq lhs.alpha rhs.alpha)

/-- `operator !=(const Oklab& lhs, const Oklab& rhs)`. -/
def opNe (lhs rhs : Oklab) : Bool :=
  (F64.ne lhs.l rhs.l)
    || (F64.ne lhs.a rhs.a)
    || (F64.ne lhs.b rhs.b)
    || (F64.ne lhs.alpha rhs.alpha)

/-- Modelled from the spec: the body of `Oklab::lerp` is not part of the header;
the spec gives `result[i] = self[i] + (other[i] - self[i]) * f` for each of the
four channels, with `f` not clamped. -/
def lerp (self other : Oklab) (f : F64) : Oklab :=
  ⟨F64.add self.l (F64.mul (F64.sub other.l self.l) f),
   F64.add self.a (F64.mul (F64.sub other.a self.a) f),
   F64.add self.b (F64.mul (F64.sub other.b self.b) f),
   F64.add self.alpha (F64.mul (F64.sub other.alpha self.alpha) f)⟩

/-- Modelled from the spec: the body of `Oklab::hash` is not part of the header;
the spec describes a deterministic hash over the four raw bit patterns (not the
semantic values) combined.  `H` is the combining function applied to the bit
patterns of `l`, `a`, `b`, `alpha` in storage order. -/
def hash (H : List Nat → Nat) (v : Oklab) : Nat :=
  H [v.l.bits, v.a.bits, v.b.bits, v.alpha.bits]

/-- A sample combining function for `hash`: multiply-and-add over the words,
modulo `2^64`. -/
def mixWords (ws : List Nat) : Nat :=
  ws.foldl (fun h w => (h * 1099511628211 + w) % 18446744073709551616) 14695981039346656037

/-- `std::hash<Oklab>::operator()`: `return value.hash();`. -/
def stdHash (H : List Nat → Nat) (value : Oklab) : Nat :=
  value.hash H

end Oklab

namespace F64

/-- Two `double`s are non-NaN and either carry the same bit pattern or are both
zeros (of either sign). -/
def sameBitsOrZeros (u v : F64) : Prop :=
  u.isNaN = false ∧ v.isNaN = false ∧
    (u.bits = v.bits ∨ (u.isZero = true ∧ v.isZero = true))

/-- The subtraction `o - s` yields a finite value (no NaN or infinite operand,
no overflow). -/
def diffFinite (s o : F64) : Prop := (sub o s).isFinite = true

/-- The subtraction `o - s` is finite and exact: the computed difference is the
difference of the exact values, without rounding. -/
def diffExact (s o : F64) : Prop :=
  (sub o s).isFinite = true ∧ (sub o s).toUnits = o.toUnits - s.toUnits

end F64

/-! ## Text output -/

/-- An output stream (`std::basic_ostream<CharType>`): the characters written so
far.  Field width and padding are not modelled (no pending `setw`). -/
abbrev Ostream := List Char

namespace Ostream

/-- The expression `output << CharType(c)`. -/
def putChar (output : Ostream) (c : Char) : Ostream := output ++ [c]

/-- The expression `output << x` for a `double` `x`; `put` is the stream's number
rendering (it depends on the stream's flags and precision). -/
def putDouble (put : F64 → List Char) (output : Ostream) (x : F64) : Ostream :=
  output ++ put x

end Ostream

namespace Oklab

/-- `operator <<(std::basic_ostream<CharType>& output, const Oklab& value)`. -/
def opShl (put : F64 → List Char) (output : Ostream) (value : Oklab) : Ostream :=
  let o := output.putChar '('
  let o := (((o.putDouble put value.l).putChar ',').putChar ' ')
  let o := (((o.putDouble put value.a).putChar ',').putChar ' ')
  let o := (((o.putDouble put value.b).putChar ',').putChar ' ')
  (o.putDouble put value.alpha).putChar ')'

end Oklab

/-! ## The `fmt` formatter -/

namespace Fmt

/-- Rendering of one `double` under a format specification by the formatting
library: `render spec x` is the text, or `none` when the library rejects `spec`.
A specification that contains an opening brace asks for a nested (dynamic width
or precision) argument, which the library rejects for `double` arguments. -/
def renderSpec (render : List Char → F64 → Option (List Char)) (spec : List Char) (x : F64) :
    Option (List Char) :=
  if '{' ∈ spec then none else render spec x

/-- Scanner mode of the format-string interpreter. -/
inductive Mode where
  | text
  | afterOpen
  | afterClose
  | field (content : List Char)
deriving DecidableEq, Repr

/-- Interpreter state: mode, text produced so far, arguments not yet used. -/
structure State where
  mode : Mode
  out : List Char
  args : List F64

/-- The format specification of a replacement field with automatic argument
indexing: the field is empty (`{}`) or a colon followed by the specification.
A field that names its argument is rejected: every format string built by the
formatter opens with an automatically indexed field, after which the library
refuses explicit argument ids. -/
def fieldSpec : List Char → Option (List Char)
  | [] => some []
  | c :: spec => if c = ':' then some spec else none

/-- Close a replacement field: render the next argument under the field's
specification. -/
def closeField (render : List Char → F64 → Option (List Char)) (content : List Char)
    (st : State) : Option State :=
  match fieldSpec content, st.args with
  | some spec, x :: rest =>
    match renderSpec render spec x with
    | some t => some ⟨Mode.text, st.out ++ t, rest⟩
    | none => none
  | _, _ => none

/-- One character of the format string.  `{{` and `}}` are escapes, a single
closing brace outside a field is an error, a replacement field runs up to the
next closing brace. -/
def step (render : List Char → F64 → Option (List Char)) (st : State) (c : Char) :
    Option State :=
  match st.mode with
  | Mode.text =>
    if c = '{' then some ⟨Mode.afterOpen, st.out, st.args⟩
    else if c = '}' then some ⟨Mode.afterClose, st.out, st.args⟩
    else some ⟨Mode.text, st.out ++ [c], st.args⟩
  | Mode.afterOpen =>
    if c = '{' then some ⟨Mode.text, st.out ++ ['{'], st.args⟩
    else if c = '}' then closeField render [] st
    else some ⟨Mode.field [c], st.out, st.args⟩
  | Mode.afterClose =>
    if c = '}' then some ⟨Mode.text, st.out ++ ['}'], st.args⟩ else none
  | Mode.field content =>
    if c = '}' then closeField render content st
    else some ⟨Mode.field (content ++ [c]), st.out, st.args⟩

/-- The call `format_to(out, format, args...)` with `double` arguments: the text
written, or `none` when the library raises a format error. -/
def formatTo (render : List Char → F64 → Option (List Char)) (format : List Char)
    (args : List F64) : Option (List Char) :=
  match format.foldlM (step render) ⟨Mode.text, [], args⟩ with
  | some st => if st.mode = Mode.text then some st.out else none
  | none => none

/-- Siv3D's `detail::GetFormatTag(tag, ctx)`: appends to `tag` the characters of
the parse context up to, not including, the first closing brace. -/
def GetFormatTag (tag : List Char) (ctx : List Char) : List Char :=
  tag ++ ctx.takeWhile (fun c => c != '}')

/-- `fmt::formatter<Oklab, s3d::char32>`: its only member is the tag. -/
structure Formatter where
  tag : List Char

/-- `formatter::parse(ctx)` on a freshly constructed formatter (empty tag). -/
def Formatter.parse (ctx : List Char) : Formatter := ⟨GetFormatTag [] ctx⟩

/-- The format string built by `formatter::format` when the tag is not empty:
`U"({:" + tag + U"}, {:" + tag + U"}, {:" + tag + U"}, {:" + tag + U"})"`. -/
def taggedFormat (tag : List Char) : List Char :=
  ['(', '{', ':'] ++ tag ++ ['}', ',', ' ', '{', ':'] ++ tag ++ ['}', ',', ' ', '{', ':'] ++ tag
    ++ ['}', ',', ' ', '{', ':'] ++ tag ++ ['}', ')']

/-- `formatter::format(value, ctx)`. -/
def Formatter.format (render : List Char → F64 → Option (List Char)) (self : Formatter)
    (value : Oklab) : Option (List Char) :=
  if self.tag.isEmpty then
    formatTo render "({}, {}, {}, {})".toList [value.l, value.a, value.b, value.alpha]
  else
    formatTo render (taggedFormat self.tag) [value.l, value.a, value.b, value.alpha]

/-- The text `(` F(l) `, ` F(a) `, ` F(b) `, ` F(alpha) `)` for a rendering `F` of
one number, and `none` as soon as one of the four renderings is rejected. -/
def parenthesized (F : F64 → Option (List Char)) (value : Oklab) : Option (List Char) :=
  (F value.l).bind fun tl =>
  (F value.a).bind fun ta =>
  (F value.b).bind fun tb =>
  (F value.alpha).bind fun tw =>
  some (['('] ++ tl ++ [',', ' '] ++ ta ++ [',', ' '] ++ tb ++ [',', ' '] ++ tw ++ [')'])

end Fmt

/-! ## Text input -/

/-- An input stream (`std::basic_istream<CharType>`): the characters not yet
read and the `failbit`. -/
structure Istream where
  rest : List Char
  fail : Bool
deriving DecidableEq, Repr

/-- State of the extraction of one floating-point field (`std::num_get`, decimal
digits): which parts of the field have been seen, and their values. -/
structure NumScan where
  atStart : Bool
  afterExp : Bool
  foundMantissa : Bool
  foundDec : Bool
  foundSci : Bool
  neg : Bool
  mant : Nat
  fracLen : Nat
  expNeg : Bool
  expVal : Nat
  expDigits : Nat
deriving DecidableEq, Repr

namespace NumScan

/-- Nothing read yet. -/
def init : NumScan :=
  ⟨true, false, false, false, false, false, 0, 0, false, 0, 0⟩

/-- Accumulate one character if it is allowed as the next character of the
field: a digit; the decimal point, once and before any exponent; `e` or `E`,
once and after a mantissa digit; a sign, at the very start or right after the
exponent letter.  `none` ends the field before `c`. -/
def step (st : NumScan) (c : Char) : Option NumScan :=
  if c.isDigit then
    let d := c.toNat - 48
    if st.foundSci then
      some { st with atStart := false, afterExp := false, foundMantissa := true,
                     expVal := st.expVal * 10 + d, expDigits := st.expDigits + 1 }
    else if st.foundDec then
      some { st with atStart := false, afterExp := false, foundMantissa := true,
                     mant := st.mant * 10 + d, fracLen := st.fracLen + 1 }
    else
      some { st with atStart := false, afterExp := false, foundMantissa := true,
                     mant := st.mant * 10 + d }
  else if c = '.' then
    if !st.foundDec && !st.foundSci then
      some { st with atStart := false, afterExp := false, foundDec := true }
    else none
  else if c = 'e' ∨ c = 'E' then
    if !st.foundSci && st.foundMantissa then
      some { st with atStart := false, afterExp := true, foundSci := true }
    else none
  else if c = '+' ∨ c = '-' then
    if st.atStart then some { st with atStart := false, neg := decide (c = '-') }
    else if st.afterExp then some { st with afterExp := false, expNeg := decide (c = '-') }
    else none
  else none

/-- Accumulate characters as long as they are allowed; returns the final state
and the characters left in the stream. -/
def scan : NumScan → List Char → NumScan × List Char
  | st, [] => (st, [])
  | st, c :: cs =>
    match st.step c with
    | some st' => scan st' cs
    | none => (st, c :: cs)

/-- Round the decimal `mant * 10^e` to the nearest `double` of sign `neg`. -/
def roundDec (neg : Bool) (mant : Nat) (e : Int) : F64 :=
  match e with
  | Int.ofNat k => F64.roundMag neg (mant * 10 ^ k * 2 ^ 1074) 1
  | Int.negSucc k => F64.roundMag neg (mant * 2 ^ 1074) (10 ^ (k + 1))

/-- Decimal exponent of the accumulated field. -/
def decExp (st : NumScan) : Int :=
  (if st.expNeg then - (st.expVal : Int) else (st.expVal : Int)) - (st.fracLen : Int)

/-- Conversion of the accumulated field: `none` when the characters do not form
a complete number (no mantissa digit, or an exponent letter without exponent
digits), otherwise the nearest `double`. -/
def convert (st : NumScan) : Option F64 :=
  if !st.foundMantissa || (st.foundSci && st.expDigits == 0) then none
  else some (roundDec st.neg st.mant st.decExp)

end NumScan

/-- The largest finite `double` (`numeric_limits<double>::max()`). -/
def F64.max (sign : Bool) : F64 := ⟨sign, 2046, 4503599627370495⟩

namespace Istream

/-- `std::isspace` in the classic locale. -/
def isSpace (c : Char) : Bool :=
  c = ' ' || c = '\t' || c = '\n' || c = '\x0b' || c = '\x0c' || c = '\r'

/-- The expression `input >> unused` for a character `unused`: skips leading
whitespace and extracts one character; sets `failbit` at the end of input.  A
stream whose `failbit` is already set is left alone. -/
def getChar (input : Istream) : Istream :=
  if input.fail then input
  else
    match input.rest.dropWhile isSpace with
    | [] => ⟨[], true⟩
    | _ :: cs => ⟨cs, false⟩

/-- The expression `input >> x` for a `double` `x` holding `old`: skips leading
whitespace, accumulates the field and converts it.  At the end of input nothing
is extracted: `failbit` is set and `x` keeps `old`.  An unconvertible field
stores `0` and sets `failbit`; a value too large for a `double` stores the
largest finite value of its sign and sets `failbit`; a value too small is
stored as the nearest subnormal or zero.  A stream whose `failbit` is already
set is left alone, and so is `x`. -/
def getDouble (input : Istream) (old : F64) : Istream × F64 :=
  if input.fail then (input, old)
  else
    match input.rest.dropWhile isSpace with
    | [] => (⟨[], true⟩, old)
    | c :: cs =>
      match NumScan.scan NumScan.init (c :: cs) with
      | (st, left) =>
        match st.convert with
        | none => (⟨left, true⟩, F64.zero)
        | some x =>
          if x.isInf then (⟨left, true⟩, F64.max x.sign) else (⟨left, false⟩, x)

end Istream

namespace Oklab

/-- `operator >>(std::basic_istream<CharType>& input, Oklab& value)`: returns the
stream and the updated `value`. -/
def opShr (input : Istream) (value : Oklab) : Istream × Oklab :=
  let i := input.getChar
  let (i, l) := i.getDouble value.l
  let i := i.getChar
  let (i, a) := i.getDouble value.a
  let i := i.getChar
  let (i, b) := i.getDouble value.b
  let i := i.getChar
  let (i, alpha) := i.getDouble value.alpha
  let i := i.getChar
  (i, ⟨l, a, b, alpha⟩)

end Oklab

/-! ## Number rendering of the output stream -/

namespace NumPut

/-- Binary search for the decimal exponent: `decSearch n i j` refines `j` with
the steps `2^(i-1), ..., 2, 1`, keeping `10^j * 2^1074 ≤ n * 10^324`, that is
`10^(j-324)` at most the value `n * 2^-1074`. -/
def decSearch (n : Nat) : Nat → Nat → Nat
  | 0, j => j
  | i + 1, j =>
    decSearch n i (if 10 ^ (j + 2 ^ i) * 2 ^ 1074 ≤ n * 10 ^ 324 then j + 2 ^ i else j)

/-- Six significant decimal digits of the positive value `n * 2^-1074`: the pair
`(m, x)` with `100000 ≤ m < 1000000` and `m * 10^(x-5)` the value rounded to six
significant digits (ties to even). -/
def sixDigits (n : Nat) : Nat × Int :=
  let j := decSearch n 10 0
  let m := F64.roundHalfEven (n * 10 ^ 329) (2 ^ 1074 * 10 ^ j)
  if m = 1000000 then (100000, (j : Int) + 1 - 324) else (m, (j : Int) - 324)

/-- The character of a decimal digit. -/
def digitChar (d : Nat) : Char := Char.ofNat (48 + d)

/-- The six digits of `m`, most significant first. -/
def digitsOf (m : Nat) : List Nat :=
  [m / 100000 % 10, m / 10000 % 10, m / 1000 % 10, m / 100 % 10, m / 10 % 10, m % 10]

/-- Drop the trailing zeros of a digit list. -/
def stripZeros (ds : List Nat) : List Nat :=
  (ds.reverse.dropWhile (fun d => d == 0)).reverse

/-- A fraction part: nothing when no digit is left, else the point and the digits. -/
def fraction (ds : List Nat) : List Char :=
  if ds.isEmpty then [] else '.' :: ds.map digitChar

/-- The exponent part of the scientific style: `e`, a sign, at least two digits. -/
def exponent (x : Int) : List Char :=
  let a := x.natAbs
  'e' :: (if x < 0 then '-' else '+') ::
    (if a < 100 then [digitChar (a / 10), digitChar (a % 10)]
     else [digitChar (a / 100), digitChar (a / 10 % 10), digitChar (a % 10)])

/-- The `%g` conversion with precision 6 of the positive value with six-digit
significand `m` and decimal exponent `x`: fixed style when `-4 ≤ x < 6`,
scientific style otherwise, trailing zeros removed in both. -/
def general (m : Nat) (x : Int) : List Char :=
  let ds := digitsOf m
  if x < -4 ∨ 6 ≤ x then
    digitChar (ds.headD 0) :: (fraction (stripZeros ds.tail) ++ exponent x)
  else if 0 ≤ x then
    (ds.take (x.toNat + 1)).map digitChar ++ fraction (stripZeros (ds.drop (x.toNat + 1)))
  else
    '0' :: fraction (List.replicate ((-x).toNat - 1) 0 ++ stripZeros ds)

/-- The expression `output << x` for a stream in its default state (general
floating-point style, precision 6): the characters written for `x`. -/
def putDouble (x : F64) : List Char :=
  (if x.sign then ['-'] else []) ++
    (if x.isNaN then ['n', 'a', 'n']
     else if x.isInf then ['i', 'n', 'f']
     else if x.isZero then ['0']
     else general (sixDigits x.magUnits).1 (sixDigits x.magUnits).2)

end NumPut

namespace NumScan

/-- The characters that can extend a complete number: a digit, the decimal point
and the exponent letters `e` and `E`. -/
def continuesNumber (c : Char) : Bool :=
  c.isDigit || c == '.' || c == 'e' || c == 'E'

/-- The field that starts with the characters `t` ends before `c`: after `t` the
extraction does not accept `c`. -/
def endsAt (t : List Char) (c : Char) : Prop :=
  (scan init t).1.step c = none

instance (t : List Char) (c : Char) : Decidable (endsAt t c) := by
  unfold endsAt; infer_instance

/-- Consistency of the flags of an extraction state: right after the exponent
letter no exponent digit has been read, before the first character no mantissa
digit has been read, and exponent digits are only read after the exponent
letter. -/
def Consistent (st : NumScan) : Prop :=
  (st.afterExp = true → st.foundSci = true ∧ st.expDigits = 0) ∧
  (st.atStart = true → st.foundMantissa = false) ∧
  (st.foundSci = false → st.expDigits = 0)

/-- The characters `t` form a complete numeric token whose value is the finite
`double` `x`: the extraction accumulates all of `t` and converts it to `x`. -/
def readsAs (t : List Char) (x : F64) : Prop :=
  (scan init t).2 = [] ∧ (scan init t).1.convert = some x ∧ x.isInf = false

instance (t : List Char) (x : F64) : Decidable (readsAs t x) := by
  unfold readsAs; infer_instance

/-- Accumulate every character of `cs`; `none` when one of them is not allowed. -/
def run (st : NumScan) (cs : List Char) : Option NumScan := cs.foldlM step st

/-- Append decimal digits to the number `a`. -/
def pushDigits (a : Nat) (ds : List Nat) : Nat := ds.foldl (fun acc d => acc * 10 + d) a

/-- State before the first digit: the sign, if any, has been read. -/
def start (atStart neg : Bool) : NumScan :=
  ⟨atStart, false, false, false, false, neg, 0, 0, false, 0, 0⟩

/-- State inside the integer part. -/
def inInt (neg : Bool) (a : Nat) : NumScan :=
  ⟨false, false, true, false, false, neg, a, 0, false, 0, 0⟩

/-- State inside the fraction part. -/
def inFrac (neg : Bool) (a f : Nat) : NumScan :=
  ⟨false, false, true, true, false, neg, a, f, false, 0, 0⟩

/-- State inside the exponent digits. -/
def inExp (dec neg : Bool) (a f : Nat) (expNeg : Bool) (ev ed : Nat) : NumScan :=
  ⟨false, false, true, dec, true, neg, a, f, expNeg, ev, ed⟩

end NumScan

namespace NumPut

/-- What reading back the text written for a finite `x` yields: `x` itself for a
zero, else the `double` nearest to the six-significant-digit decimal written. -/
def readBack (x : F64) : F64 :=
  if x.isZero then x
  else NumScan.roundDec x.sign (sixDigits x.magUnits).1 ((sixDigits x.magUnits).2 - 5)

end NumPut

namespace NumScan

/-- State after the mantissa: `dec` tells whether a decimal point was read. -/
def afterMant (dec neg : Bool) (a f : Nat) : NumScan :=
  ⟨false, false, true, dec, false, neg, a, f, false, 0, 0⟩

end NumScan

namespace NumPut

/-- The decimal `m * 10^(x-5)` has six significant digits and lies within half a
unit of its last digit of the value `n * 2^-1074`: with both sides scaled by
`2^1074 * 10^329`, the value is `n * 10^329`, the decimal is `m * D` and one
unit of the last digit is `D = 2^1074 * 10^(x+324)`. -/
def sixDigitRounding (n m : Nat) (x : Int) : Prop :=
  100000 ≤ m ∧ m ≤ 999999 ∧
    2 * (n * 10 ^ 329) ≤ 2 * (m * (2 ^ 1074 * 10 ^ (x + 324).toNat))
      + 2 ^ 1074 * 10 ^ (x + 324).toNat ∧
    2 * (m * (2 ^ 1074 * 10 ^ (x + 324).toNat))
      ≤ 2 * (n * 10 ^ 329) + 2 ^ 1074 * 10 ^ (x + 324).toNat

end NumPut

namespace Fmt

/-- The format string of one number under the tag `t`: `{}` for the empty tag,
else `{:` followed by the tag and `}`. -/
def oneField (t : List Char) : List Char :=
  if t.isEmpty then ['{', '}'] else ['{', ':'] ++ t ++ ['}']

/-- The rendering of one number under the tag `t` by the formatting library. -/
def renderOne (render : List Char → F64 → Option (List Char)) (t : List Char) (x : F64) :
    Option (List Char) :=
  formatTo render (oneField t) [x]

end Fmt

/-! ## The sRGB transfer curves -/

namespace SRGB

/-- The `double` of the decimal literal `m * 10^-k` (correctly rounded). -/
def lit (m k : Nat) : F64 := NumScan.roundDec false m (-(k : Int))

/-- Modelled from the spec: the body of `Oklab::removeSRGBCurve` is not part of
the header; the spec gives, per channel `c`, `c / 12.92` if `c ≤ 0.04045`, else
`((c + 0.055) / 1.055) ^ 2.4`.  This is the formula in `double` arithmetic;
`pow` is the power function of the math library, whose rounding the language
does not fix. -/
def removeSRGBCurve (pow : F64 → F64 → F64) (c : F64) : F64 :=
  if F64.le c (lit 4045 5) then F64.div c (lit 1292 2)
  else pow (F64.div (F64.add c (lit 55 3)) (lit 1055 3)) (lit 24 1)

/-- Modelled from the spec: the body of `Oklab::applySRGBCurve` is not part of
the header; the spec gives, per channel `c`, `c * 12.92` if `c ≤ 0.0031308`, else
`1.055 * c^(1/2.4) - 0.055`.  This is the formula in `double` arithmetic. -/
def applySRGBCurve (pow : F64 → F64 → F64) (c : F64) : F64 :=
  if F64.le c (lit 31308 7) then F64.mul c (lit 1292 2)
  else F64.sub (F64.mul (lit 1055 3) (pow c (F64.div F64.one (lit 24 1)))) (lit 55 3)

/-- Modelled from the spec: the formula of `removeSRGBCurve` for one channel,
evaluated in exact real arithmetic. -/
noncomputable def removeSRGBCurveExact (c : ℝ) : ℝ :=
  if c ≤ 0.04045 then c / 12.92 else ((c + 0.055) / 1.055) ^ (2.4 : ℝ)

/-- Modelled from the spec: the formula of `applySRGBCurve` for one channel,
evaluated in exact real arithmetic. -/
noncomputable def applySRGBCurveExact (c : ℝ) : ℝ :=
  if c ≤ 0.0031308 then c * 12.92 else 1.055 * c ^ (1 / 2.4 : ℝ) - 0.055

end SRGB

/-! ## Comparison lemmas -/

namespace F64

theorem ne_eq_not_eq (x y : F64) : F64.ne x y = !F64.eq x y := by
  unfold F64.ne F64.eq
  cases compare x y <;> rfl

theorem eq_true_iff (x y : F64) :
    F64.eq x y = true ↔
      x.isNaN = false ∧ y.isNaN = false ∧ (x = y ∨ (x.isZero = true ∧ y.isZero = true)) := by
  obtain ⟨sx, ⟨ex, hex⟩, ⟨mx, hmx⟩⟩ := x
  obtain ⟨sy, ⟨ey, hey⟩, ⟨my, hmy⟩⟩ := y
  simp only [F64.eq, compare, key, magKey, isNaN, isZero, F64.mk.injEq, Fin.mk.injEq]
  cases sx <;> cases sy <;> simp <;> split_ifs <;> simp <;> omega

/-! ### Rounding lemmas -/

theorem shiftSearch_spec (u : Nat) : ∀ (j k : Nat),
    (k = 0 ∨ 2 ^ (52 + k) ≤ u) → u < 2 ^ (52 + k + 2 ^ j) →
    (shiftSearch u j k = 0 ∨ 2 ^ (52 + shiftSearch u j k) ≤ u) ∧
      u < 2 ^ (53 + shiftSearch u j k) := by
  intro j
  induction j with
  | zero =>
    intro k h1 h2
    simp only [shiftSearch]
    refine ⟨h1, ?_⟩
    have : 52 + k + 2 ^ 0 = 53 + k := by simp; omega
    rwa [this] at h2
  | succ j ih =>
    intro k h1 h2
    simp only [shiftSearch]
    split_ifs with h
    · apply ih
      · right
        have : 52 + (k + 2 ^ j) = 52 + k + 2 ^ j := by omega
        rwa [this]
      · have : 52 + (k + 2 ^ j) + 2 ^ j = 52 + k + 2 ^ (j + 1) := by
          rw [pow_succ]; omega
        rwa [this]
    · exact ih k h1 (by omega)

theorem shiftOf_eq (u e : Nat) (he : e ≤ 4095) (h1 : 2 ^ (52 + e) ≤ u)
    (h2 : u < 2 ^ (53 + e)) : shiftOf u = e := by
  have hu : u < 2 ^ (52 + 0 + 2 ^ 12) :=
    lt_of_lt_of_le h2 (Nat.pow_le_pow_right (by norm_num) (by norm_num; omega))
  obtain ⟨ha, hb⟩ := shiftSearch_spec u 12 0 (Or.inl rfl) hu
  unfold shiftOf
  generalize shiftSearch u 12 0 = r at ha hb
  have hlt1 : 52 + e < 53 + r := by
    by_contra hcon
    have := Nat.pow_le_pow_right (show 0 < 2 by norm_num) (not_lt.mp hcon)
    omega
  rcases ha with ha | ha
  · omega
  · have hlt2 : 52 + r < 53 + e := by
      by_contra hcon
      have := Nat.pow_le_pow_right (show 0 < 2 by norm_num) (not_lt.mp hcon)
      omega
    omega

theorem shiftOf_small (u : Nat) (h : u < 2 ^ 53) : shiftOf u = 0 := by
  have hu : u < 2 ^ (52 + 0 + 2 ^ 12) :=
    lt_of_lt_of_le h (Nat.pow_le_pow_right (by norm_num) (by norm_num))
  obtain ⟨ha, _⟩ := shiftSearch_spec u 12 0 (Or.inl rfl) hu
  unfold shiftOf
  generalize shiftSearch u 12 0 = r at ha
  rcases ha with ha | ha
  · exact ha
  · by_contra hr
    have : 2 ^ 53 ≤ 2 ^ (52 + r) := Nat.pow_le_pow_right (by norm_num) (by omega)
    omega

theorem roundHalfEven_exact (q d : Nat) (hd : 0 < d) : roundHalfEven (q * d) d = q := by
  simp [roundHalfEven, Nat.mul_div_cancel _ hd, hd]

theorem roundHalfEven_scale (t d c : Nat) (hc : 0 < c) :
    roundHalfEven (t * c) (d * c) = roundHalfEven t d := by
  unfold roundHalfEven
  simp only [Nat.mul_div_mul_right _ _ hc, Nat.mul_mod_mul_right]
  have e1 : 2 * (t % d * c) < d * c ↔ 2 * (t % d) < d := by
    rw [← mul_assoc]; exact Nat.mul_lt_mul_right hc
  have e2 : d * c < 2 * (t % d * c) ↔ d < 2 * (t % d) := by
    rw [← mul_assoc]; exact Nat.mul_lt_mul_right hc
  simp only [e1, e2]

theorem ofMagKey_fields (s : Bool) (e m : Nat) (he : e < 2047) (hm : m < 4503599627370496) :
    ofMagKey s (e * 4503599627370496 + m) = ⟨s, ⟨e, by omega⟩, ⟨m, hm⟩⟩ := by
  unfold ofMagKey
  rw [dif_pos (by omega)]
  simp only [F64.mk.injEq, Fin.mk.injEq, true_and]
  constructor <;> omega

theorem roundMag_scale (s : Bool) (t d c : Nat) (hc : 0 < c) :
    roundMag s (t * c) (d * c) = roundMag s t d := by
  unfold roundMag
  simp only [Nat.mul_div_mul_right _ _ hc]
  have : d * c * 2 ^ shiftOf (t / d) = d * 2 ^ shiftOf (t / d) * c := by ring
  rw [this, roundHalfEven_scale _ _ _ hc]

theorem roundMag_zero (s : Bool) (d : Nat) : roundMag s 0 d = ⟨s, 0, 0⟩ := by
  have h0 : shiftOf 0 = 0 := shiftOf_small 0 (by norm_num)
  simp [roundMag, h0, roundHalfEven, ofMagKey]

theorem magUnits_bounds (x : F64) (h : x.expo.val ≠ 0) :
    2 ^ (52 + (x.expo.val - 1)) ≤ x.magUnits ∧ x.magUnits < 2 ^ (53 + (x.expo.val - 1)) := by
  have hm := x.mant.isLt
  simp only [magUnits, h, if_false]
  rw [pow_add, pow_add]
  constructor
  · apply Nat.mul_le_mul_right; norm_num
  · apply Nat.mul_lt_mul_of_lt_of_le _ le_rfl (by positivity)
    norm_num; omega

theorem roundMag_magUnits (x : F64) (hx : x.isFinite = true) :
    roundMag x.sign x.magUnits 1 = x := by
  have hfin : x.expo.val ≠ 2047 := by simpa [isFinite] using hx
  by_cases h0 : x.expo.val = 0
  · have hu : x.magUnits = x.mant.val := by simp [magUnits, h0]
    have hs : shiftOf x.mant.val = 0 := shiftOf_small _ (by have := x.mant.isLt; omega)
    obtain ⟨sx, ⟨ex, hex⟩, ⟨mx, hmx⟩⟩ := x
    simp only at h0 hu hs
    subst h0
    simp only [roundMag, hu, Nat.div_one, hs, pow_zero, mul_one, zero_mul, zero_add]
    have := roundHalfEven_exact mx 1 (by norm_num)
    simp only [mul_one] at this
    rw [this]
    have := ofMagKey_fields sx 0 mx (by norm_num) hmx
    simpa using this
  · obtain ⟨hb1, hb2⟩ := magUnits_bounds x h0
    have hs : shiftOf x.magUnits = x.expo.val - 1 :=
      shiftOf_eq _ _ (by have := x.expo.isLt; omega) hb1 hb2
    have hu : x.magUnits = (4503599627370496 + x.mant.val) * 2 ^ (x.expo.val - 1) := by
      simp [magUnits, h0]
    simp only [roundMag, Nat.div_one, hs, one_mul]
    rw [hu, roundHalfEven_exact _ _ (by positivity)]
    obtain ⟨sx, ⟨ex, hex⟩, ⟨mx, hmx⟩⟩ := x
    simp only at h0 hfin ⊢
    have hk : (ex - 1) * 4503599627370496 + (4503599627370496 + mx)
        = ex * 4503599627370496 + mx := by
      obtain ⟨n, rfl⟩ : ∃ n, ex = n + 1 := ⟨ex - 1, by omega⟩
      simp; ring
    rw [hk]
    exact ofMagKey_fields sx ex mx (by omega) hmx

theorem bits_inj (x y : F64) : x.bits = y.bits ↔ x = y := by
  constructor
  · intro h
    obtain ⟨sx, ⟨ex, hex⟩, ⟨mx, hmx⟩⟩ := x
    obtain ⟨sy, ⟨ey, hey⟩, ⟨my, hmy⟩⟩ := y
    simp only [bits] at h
    simp only [F64.mk.injEq, Fin.mk.injEq]
    cases sx <;> cases sy <;> simp at h ⊢ <;> omega
  · intro h; rw [h]

theorem eq_self (x : F64) (h : x.isNaN = false) : F64.eq x x = true :=
  (eq_true_iff x x).2 ⟨h, h, Or.inl rfl⟩

theorem isNaN_of_isFinite (x : F64) (h : x.isFinite = true) : x.isNaN = false := by
  simp [isFinite] at h
  simp [isNaN, h]

theorem magUnits_eq_zero (x : F64) (h : x.magUnits = 0) : x.isZero = true := by
  unfold magUnits at h
  split_ifs at h with h0
  · simp [isZero, h0, h]
  · exfalso
    have : 0 < (4503599627370496 + x.mant.val) * 2 ^ (x.expo.val - 1) := by positivity
    omega

theorem toUnits_eq_zero (x : F64) (h : x.toUnits = 0) : x.isZero = true := by
  apply magUnits_eq_zero
  unfold toUnits at h
  split_ifs at h <;> omega

theorem mul_one (x : F64) (h : x.isNaN = false) : mul x one = x := by
  have h1 : one.isNaN = false := by decide
  have h2 : one.isInf = false := by decide
  have h3 : one.isZero = false := by decide
  unfold mul
  simp only [h, h1, h2, h3, Bool.or_false, Bool.false_eq_true, if_false]
  by_cases hi : x.isInf = true
  · simp only [hi, if_true]
    obtain ⟨sx, ⟨ex, hex⟩, ⟨mx, hmx⟩⟩ := x
    simp [isInf] at hi
    simp [isZero, hi, one]
  · have hf : x.isFinite = true := by
      simp [isInf] at hi; simp [isNaN] at h; simp [isFinite]; tauto
    simp only [hi, if_false, Bool.false_eq_true]
    have hs : (x.sign != one.sign) = x.sign := by simp [one]
    have h4 : one.magUnits = 2 ^ 1074 := by decide!
    have h5 := roundMag_scale x.sign x.magUnits 1 (2 ^ 1074) (by positivity)
    rw [Nat.one_mul] at h5
    rw [hs, h4, h5]
    exact roundMag_magUnits x hf

theorem mul_zero_of_finite (x : F64) (h : x.isFinite = true) : (mul x zero).isZero = true := by
  have hn := isNaN_of_isFinite x h
  have hi : x.isInf = false := by simp [isFinite] at h; simp [isInf, h]
  have h1 : zero.isNaN = false := by decide
  have h2 : zero.isInf = false := by decide
  have h4 : zero.magUnits = 0 := by decide
  unfold mul
  simp only [hn, hi, h1, h2, Bool.or_false, Bool.false_eq_true, if_false, h4, Nat.mul_zero,
    roundMag_zero]
  rfl

theorem toUnits_of_isZero (x : F64) (h : x.isZero = true) : x.toUnits = 0 := by
  simp [isZero] at h
  simp [toUnits, magUnits, h]

theorem isFinite_of_isZero (x : F64) (h : x.isZero = true) : x.isFinite = true := by
  simp [isZero] at h
  simp [isFinite, h]

theorem isInf_of_isFinite (x : F64) (h : x.isFinite = true) : x.isInf = false := by
  simp [isFinite] at h
  simp [isInf, h]

theorem sign_of_toUnits (x : F64) (h : x.toUnits ≠ 0) :
    decide (x.toUnits < 0) = x.sign ∧ x.toUnits.natAbs = x.magUnits := by
  unfold toUnits at h ⊢
  cases hs : x.sign <;> simp [hs] at h ⊢
  omega

theorem add_eq_of_sum (x y z : F64) (hx : x.isFinite = true) (hy : y.isFinite = true)
    (hz : z.isFinite = true) (h : x.toUnits + y.toUnits = z.toUnits) :
    F64.eq (add x y) z = true := by
  unfold add
  simp only [isNaN_of_isFinite x hx, isNaN_of_isFinite y hy, isInf_of_isFinite x hx,
    isInf_of_isFinite y hy, Bool.or_false, Bool.false_eq_true, if_false, h]
  by_cases h0 : z.toUnits = 0
  · simp only [h0, if_true]
    exact (eq_true_iff _ _).2 ⟨by simp [isNaN], isNaN_of_isFinite z hz,
      Or.inr ⟨by simp [isZero], toUnits_eq_zero z h0⟩⟩
  · simp only [h0, if_false]
    obtain ⟨h1, h2⟩ := sign_of_toUnits z h0
    rw [h1, h2, roundMag_magUnits z hz]
    exact eq_self z (isNaN_of_isFinite z hz)

theorem neg_isFinite (x : F64) : (neg x).isFinite = x.isFinite := rfl

theorem isFinite_eq (x : F64) : x.isFinite = (!x.isNaN && !x.isInf) := by
  simp only [isFinite, isNaN, isInf, bne]
  cases (x.expo.val == 2047) <;> cases (x.mant.val == 0) <;> rfl

theorem not_isFinite_of_isInf (x : F64) (h : x.isInf = true) : x.isFinite = false := by
  rw [isFinite_eq, h]; simp

theorem add_isFinite_imp (x y : F64) (h : (add x y).isFinite = true) :
    x.isFinite = true ∧ y.isFinite = true := by
  have hnan : nan.isFinite = false := by decide
  unfold add at h
  rw [isFinite_eq x, isFinite_eq y]
  cases hnx : x.isNaN <;> cases hny : y.isNaN <;> simp only [hnx, hny, Bool.or_true,
    Bool.or_false, Bool.true_or, if_true, hnan, Bool.false_eq_true, if_false] at h
  cases hix : x.isInf
  · cases hiy : y.isInf
    · simp
    · simp only [hix, hiy, Bool.false_eq_true, if_false, if_true] at h
      rw [not_isFinite_of_isInf y hiy] at h
      exact absurd h (by simp)
  · simp only [hix, if_true] at h
    split_ifs at h
    · rw [hnan] at h; exact absurd h (by simp)
    · rw [not_isFinite_of_isInf x hix] at h
      exact absurd h (by simp)

theorem sub_isFinite_imp (x y : F64) (h : (sub x y).isFinite = true) :
    x.isFinite = true ∧ y.isFinite = true := by
  have := add_isFinite_imp x (neg y) h
  rwa [neg_isFinite] at this

/-- One channel of `lerp` at `f = 0.0`. -/
theorem lerp_channel_zero (s o : F64) (h : (sub o s).isFinite = true) :
    F64.eq (add s (mul (sub o s) zero)) s = true := by
  obtain ⟨_, hs⟩ := sub_isFinite_imp o s h
  have hz := mul_zero_of_finite (sub o s) h
  apply add_eq_of_sum s _ s hs (isFinite_of_isZero _ hz) hs
  rw [toUnits_of_isZero _ hz]; simp

/-- One channel of `lerp` at `f = 1.0`. -/
theorem lerp_channel_one (s o : F64) (h : (sub o s).isFinite = true)
    (hex : (sub o s).toUnits = o.toUnits - s.toUnits) :
    F64.eq (add s (mul (sub o s) one)) o = true := by
  obtain ⟨ho, hs⟩ := sub_isFinite_imp o s h
  rw [mul_one _ (isNaN_of_isFinite _ h)]
  apply add_eq_of_sum s _ o hs h ho
  rw [hex]; ring

theorem magUnits_inj (x y : F64) (hx : x.isFinite = true) (hy : y.isFinite = true)
    (h : x.magUnits = y.magUnits) : x.expo = y.expo ∧ x.mant = y.mant := by
  have h1 := roundMag_magUnits ⟨false, x.expo, x.mant⟩ hx
  have h2 := roundMag_magUnits ⟨false, y.expo, y.mant⟩ hy
  have e1 : magUnits ⟨false, x.expo, x.mant⟩ = x.magUnits := rfl
  have e2 : magUnits ⟨false, y.expo, y.mant⟩ = y.magUnits := rfl
  simp only [e1, e2] at h1 h2
  rw [h, h2] at h1
  simp only [F64.mk.injEq, true_and] at h1
  exact ⟨h1.1.symm, h1.2.symm⟩

theorem eq_iff_toUnits (x y : F64) (hx : x.isFinite = true) (hy : y.isFinite = true) :
    F64.eq x y = true ↔ x.toUnits = y.toUnits := by
  rw [eq_true_iff]
  constructor
  · rintro ⟨_, _, h | ⟨h1, h2⟩⟩
    · rw [h]
    · rw [toUnits_of_isZero x h1, toUnits_of_isZero y h2]
  · intro h
    refine ⟨isNaN_of_isFinite x hx, isNaN_of_isFinite y hy, ?_⟩
    by_cases hs : x.sign = y.sign
    · left
      have hm : x.magUnits = y.magUnits := by
        unfold toUnits at h
        rw [hs] at h
        split_ifs at h <;> omega
      obtain ⟨he, hmant⟩ := magUnits_inj x y hx hy hm
      obtain ⟨sx, ex, mx⟩ := x
      obtain ⟨sy, ey, my⟩ := y
      simp only at hs he hmant
      rw [hs, he, hmant]
    · right
      have hm : x.magUnits = 0 ∧ y.magUnits = 0 := by
        unfold toUnits at h
        cases hsx : x.sign <;> cases hsy : y.sign <;> simp [hsx, hsy] at h hs <;> omega
      exact ⟨magUnits_eq_zero x hm.1, magUnits_eq_zero y hm.2⟩

end F64

/-! ## Claims -/

namespace Oklab

/-- C1 (the code departs from the claim): for the vector `(0, 0, 0, 1)` the
`Vec4` constructor stores `alpha = 0`, the vector's third component, and not
the fourth component `1`; in general `alpha` is a copy of `z`. -/
theorem ofVec4_alpha_reads_z :
    (ofVec4 ⟨F64.zero, F64.zero, F64.zero, F64.one⟩).alpha = F64.zero ∧
    (ofVec4 ⟨F64.zero, F64.zero, F64.zero, F64.one⟩).alpha ≠ F64.one ∧
    (∀ v : Vec4, (ofVec4 v).l = v.x ∧ (ofVec4 v).a = v.y ∧ (ofVec4 v).b = v.z ∧
      (ofVec4 v).alpha = v.z) := by
  refine ⟨rfl, by decide, fun v => ⟨rfl, rfl, rfl, rfl⟩⟩

/-- C2: `operator==` is true exactly when all four field comparisons `==` on
`double` are true; one unequal field makes the values unequal; and the field
comparison has no tolerance: two finite doubles compare equal exactly when
their exact values coincide. -/
theorem opEq_iff_fields_equal (x y : Oklab) :
    (opEq x y = true ↔
      (F64.eq x.l y.l = true ∧ F64.eq x.a y.a = true ∧ F64.eq x.b y.b = true ∧
        F64.eq x.alpha y.alpha = true)) ∧
    ((F64.eq x.l y.l = false ∨ F64.eq x.a y.a = false ∨ F64.eq x.b y.b = false ∨
        F64.eq x.alpha y.alpha = false) → opEq x y = false) ∧
    (∀ u v : F64, u.isFinite = true → v.isFinite = true →
      (F64.eq u v = true ↔ u.toUnits = v.toUnits)) := by
  refine ⟨?_, ?_, fun u v hu hv => F64.eq_iff_toUnits u v hu hv⟩
  · simp [opEq, and_assoc]
  · intro h
    simp only [opEq]
    rcases h with h | h | h | h <;> simp [h]

/-- Witness for C2: `(1, 0, 0, 1)` and `(1, 0, 0, 1 + 2^-52)` differ by one unit
in the last place of `alpha` and compare unequal. -/
theorem opEq_iff_fields_equal_witness :
    opEq ⟨F64.one, F64.zero, F64.zero, F64.one⟩
      ⟨F64.one, F64.zero, F64.zero, ⟨false, 1023, 1⟩⟩ = false :=
  (opEq_iff_fields_equal ⟨F64.one, F64.zero, F64.zero, F64.one⟩
    ⟨F64.one, F64.zero, F64.zero, ⟨false, 1023, 1⟩⟩).2.1
    (Or.inr (Or.inr (Or.inr (by decide))))

/-- C4: the four-scalar constructor called without `alpha` yields
`(l, a, b, 1.0)` with the scalars stored in order, a default-constructed value
has `alpha = 1.0`, and `1.0` is not `0`. -/
theorem alpha_defaults_to_one (l a b : F64) :
    ofScalars l a b none = ⟨l, a, b, F64.one⟩ ∧
    (ofScalars l a b none).l = l ∧ (ofScalars l a b none).a = a ∧
    (ofScalars l a b none).b = b ∧ (ofScalars l a b none).alpha = F64.one ∧
    (default l a b).alpha = F64.one ∧
    F64.eq (default l a b).alpha F64.zero = false := by
  exact ⟨rfl, rfl, rfl, rfl, rfl, rfl, (by decide : F64.eq F64.one F64.zero = false)⟩

/-- C10: `operator!=` is the negation of `operator==` for every pair of values,
NaN and signed-zero fields included. -/
theorem opNe_eq_not_opEq (x y : Oklab) : opNe x y = !opEq x y := by
  simp only [opNe, opEq, F64.ne_eq_not_eq, Bool.not_and]

/-- C3 (as stated, refuted): `(+0.0, 0, 0, 1)` and `(-0.0, 0, 0, 1)` compare
equal although the bit patterns of `l` differ, and a hash over the bit patterns
can tell them apart; `(NaN, 0, 0, 1)` has the same bit patterns as itself and
does not compare equal to itself. -/
theorem opEq_not_bit_exact :
    opEq ⟨F64.zero, F64.zero, F64.zero, F64.one⟩ ⟨F64.negZero, F64.zero, F64.zero, F64.one⟩ = true ∧
    F64.zero.bits ≠ F64.negZero.bits ∧
    hash mixWords ⟨F64.zero, F64.zero, F64.zero, F64.one⟩
      ≠ hash mixWords ⟨F64.negZero, F64.zero, F64.zero, F64.one⟩ ∧
    opEq ⟨F64.nan, F64.zero, F64.zero, F64.one⟩ ⟨F64.nan, F64.zero, F64.zero, F64.one⟩ = false := by
  decide

/-- C3 (amended): `operator==` holds exactly when, in each of the four fields,
neither value is NaN and the two have the same bit pattern or are both zeros;
values with identical bit patterns in all four fields get the same `hash()` and
the same `std::hash` value; and values that compare equal and have no zero
field have identical bit patterns, hence the same `hash()` and `std::hash`. -/
theorem opEq_iff_sameBitsOrZeros (H : List Nat → Nat) (x y : Oklab) :
    (opEq x y = true ↔
      (F64.sameBitsOrZeros x.l y.l ∧ F64.sameBitsOrZeros x.a y.a ∧
        F64.sameBitsOrZeros x.b y.b ∧ F64.sameBitsOrZeros x.alpha y.alpha)) ∧
    ((x.l.bits = y.l.bits ∧ x.a.bits = y.a.bits ∧ x.b.bits = y.b.bits ∧
        x.alpha.bits = y.alpha.bits) →
      hash H x = hash H y ∧ stdHash H x = stdHash H y) ∧
    (opEq x y = true →
      (x.l.isZero = false ∧ x.a.isZero = false ∧ x.b.isZero = false ∧
        x.alpha.isZero = false) →
      (x.l.bits = y.l.bits ∧ x.a.bits = y.a.bits ∧ x.b.bits = y.b.bits ∧
        x.alpha.bits = y.alpha.bits) ∧
      hash H x = hash H y ∧ stdHash H x = stdHash H y) := by
  have key : ∀ u v : F64, F64.eq u v = true ↔ F64.sameBitsOrZeros u v := by
    intro u v
    rw [F64.eq_true_iff, F64.sameBitsOrZeros, F64.bits_inj]
  have hashEq : (x.l.bits = y.l.bits ∧ x.a.bits = y.a.bits ∧ x.b.bits = y.b.bits ∧
        x.alpha.bits = y.alpha.bits) →
      hash H x = hash H y ∧ stdHash H x = stdHash H y := by
    rintro ⟨h1, h2, h3, h4⟩
    simp only [stdHash, hash, h1, h2, h3, h4, and_self]
  have iffMain : opEq x y = true ↔
      (F64.sameBitsOrZeros x.l y.l ∧ F64.sameBitsOrZeros x.a y.a ∧
        F64.sameBitsOrZeros x.b y.b ∧ F64.sameBitsOrZeros x.alpha y.alpha) := by
    simp only [opEq, Bool.and_eq_true, key, and_assoc]
  refine ⟨iffMain, hashEq, ?_⟩
  intro he hz
  have hb : ∀ u v : F64, F64.sameBitsOrZeros u v → u.isZero = false → u.bits = v.bits := by
    rintro u v ⟨_, _, h | ⟨h, _⟩⟩ hu
    · exact h
    · rw [h] at hu; exact absurd hu (by simp)
  obtain ⟨h1, h2, h3, h4⟩ := iffMain.1 he
  have hbits := And.intro (hb _ _ h1 hz.1)
    (And.intro (hb _ _ h2 hz.2.1) (And.intro (hb _ _ h3 hz.2.2.1) (hb _ _ h4 hz.2.2.2)))
  exact ⟨hbits, hashEq hbits⟩

/-- Witness for C3 (amended): two copies of `(1, 1, 1, 1)` compare equal, have no
zero field, and hash alike. -/
theorem opEq_iff_sameBitsOrZeros_witness :
    (⟨F64.one, F64.one, F64.one, F64.one⟩ : Oklab).l.bits = 4607182418800017408 ∧
    hash mixWords ⟨F64.one, F64.one, F64.one, F64.one⟩
      = hash mixWords ⟨F64.one, F64.one, F64.one, F64.one⟩ ∧
    stdHash mixWords ⟨F64.one, F64.one, F64.one, F64.one⟩
      = stdHash mixWords ⟨F64.one, F64.one, F64.one, F64.one⟩ :=
  ⟨by decide, ((opEq_iff_sameBitsOrZeros mixWords ⟨F64.one, F64.one, F64.one, F64.one⟩
    ⟨F64.one, F64.one, F64.one, F64.one⟩).2.2 (by decide) (by decide)).2⟩

/-- C9 (as stated, refuted): with `s.l = -DBL_MAX` and `o.l = DBL_MAX` the
difference overflows and `s.lerp(o, 0.0)` has a NaN lightness, so it is not
`== s`; with `s.l = 1.0` and `o.l = 2^-60` the difference rounds to `-1.0` and
`s.lerp(o, 1.0)` has lightness `0`, so it is not `== o`. -/
theorem lerp_endpoints_fail :
    opEq (lerp ⟨⟨true, 2046, 4503599627370495⟩, F64.zero, F64.zero, F64.one⟩
        ⟨⟨false, 2046, 4503599627370495⟩, F64.zero, F64.zero, F64.one⟩ F64.zero)
      ⟨⟨true, 2046, 4503599627370495⟩, F64.zero, F64.zero, F64.one⟩ = false ∧
    opEq (lerp ⟨F64.one, F64.zero, F64.zero, F64.one⟩
        ⟨⟨false, 963, 0⟩, F64.zero, F64.zero, F64.one⟩ F64.one)
      ⟨⟨false, 963, 0⟩, F64.zero, F64.zero, F64.one⟩ = false ∧
    (lerp ⟨F64.one, F64.zero, F64.zero, F64.one⟩
        ⟨⟨false, 963, 0⟩, F64.zero, F64.zero, F64.one⟩ F64.one).l = F64.zero := by
  decide!

/-- C9 (amended): when every channel difference `o[i] - s[i]` is finite,
`s.lerp(o, 0.0) == s`; when every channel difference is moreover computed
without rounding, `s.lerp(o, 1.0) == o`. -/
theorem lerp_endpoints (s o : Oklab) :
    ((F64.diffFinite s.l o.l ∧ F64.diffFinite s.a o.a ∧ F64.diffFinite s.b o.b ∧
        F64.diffFinite s.alpha o.alpha) →
      opEq (lerp s o F64.zero) s = true) ∧
    ((F64.diffExact s.l o.l ∧ F64.diffExact s.a o.a ∧ F64.diffExact s.b o.b ∧
        F64.diffExact s.alpha o.alpha) →
      opEq (lerp s o F64.one) o = true) := by
  constructor
  · rintro ⟨h1, h2, h3, h4⟩
    simp only [opEq, lerp, Bool.and_eq_true]
    exact ⟨⟨⟨F64.lerp_channel_zero _ _ h1, F64.lerp_channel_zero _ _ h2⟩,
      F64.lerp_channel_zero _ _ h3⟩, F64.lerp_channel_zero _ _ h4⟩
  · rintro ⟨h1, h2, h3, h4⟩
    simp only [opEq, lerp, Bool.and_eq_true]
    exact ⟨⟨⟨F64.lerp_channel_one _ _ h1.1 h1.2, F64.lerp_channel_one _ _ h2.1 h2.2⟩,
      F64.lerp_channel_one _ _ h3.1 h3.2⟩, F64.lerp_channel_one _ _ h4.1 h4.2⟩

/-- Witness for C9 (amended): interpolating from `(0, 0, 0, 1)` to `(1, 0, 0, 1)`. -/
theorem lerp_endpoints_witness :
    opEq (lerp ⟨F64.zero, F64.zero, F64.zero, F64.one⟩ ⟨F64.one, F64.zero, F64.zero, F64.one⟩
        F64.zero) ⟨F64.zero, F64.zero, F64.zero, F64.one⟩ = true ∧
    opEq (lerp ⟨F64.zero, F64.zero, F64.zero, F64.one⟩ ⟨F64.one, F64.zero, F64.zero, F64.one⟩
        F64.one) ⟨F64.one, F64.zero, F64.zero, F64.one⟩ = true :=
  ⟨(lerp_endpoints ⟨F64.zero, F64.zero, F64.zero, F64.one⟩
      ⟨F64.one, F64.zero, F64.zero, F64.one⟩).1 (by unfold F64.diffFinite; decide!),
   (lerp_endpoints ⟨F64.zero, F64.zero, F64.zero, F64.one⟩
      ⟨F64.one, F64.zero, F64.zero, F64.one⟩).2 (by unfold F64.diffExact; decide!)⟩

end Oklab

/-! ## Formatter lemmas and claim -/

namespace Fmt

theorem foldlM_field (render : List Char → F64 → Option (List Char)) :
    ∀ (t content out : List Char) (args : List F64), '}' ∉ t →
      t.foldlM (step render) ⟨Mode.field content, out, args⟩
        = some ⟨Mode.field (content ++ t), out, args⟩ := by
  intro t
  induction t with
  | nil => intro content out args _; simp
  | cons c t ih =>
    intro content out args h
    have hc : c ≠ '}' := fun e => h (by simp [e])
    have ht : '}' ∉ t := fun e => h (by simp [e])
    simp only [List.foldlM_cons, step, hc, if_false, Option.bind_eq_bind, Option.some_bind]
    rw [ih _ _ _ ht]
    simp

/-- An automatically indexed replacement field `{:spec}` met in text mode. -/
theorem foldlM_replacement (render : List Char → F64 → Option (List Char))
    (t out : List Char) (x : F64) (args : List F64) (ht : '}' ∉ t) :
    ('{' :: ':' :: (t ++ ['}'])).foldlM (step render) ⟨Mode.text, out, x :: args⟩
      = (renderSpec render t x).map (fun tx => ⟨Mode.text, out ++ tx, args⟩) := by
  simp only [List.foldlM_cons, step, if_true, Option.bind_eq_bind, Option.some_bind,
    List.foldlM_append]
  have h1 : (':' : Char) ≠ '{' := by decide
  have h2 : (':' : Char) ≠ '}' := by decide
  simp only [h1, h2, if_false, Option.some_bind]
  rw [foldlM_field render t [':'] out (x :: args) ht]
  simp only [Option.some_bind, List.foldlM_cons, step, if_true, closeField, List.cons_append,
    List.nil_append, fieldSpec, List.foldlM_nil]
  cases renderSpec render t x <;> rfl

/-- The empty replacement field `{}` met in text mode. -/
theorem foldlM_emptyField (render : List Char → F64 → Option (List Char))
    (out : List Char) (x : F64) (args : List F64) :
    ['{', '}'].foldlM (step render) ⟨Mode.text, out, x :: args⟩
      = (renderSpec render [] x).map (fun tx => ⟨Mode.text, out ++ tx, args⟩) := by
  have h1 : ('}' : Char) ≠ '{' := by decide
  simp only [List.foldlM_cons, step, if_true, Option.bind_eq_bind, Option.some_bind, h1,
    if_false, closeField, fieldSpec, List.foldlM_nil]
  cases renderSpec render [] x <;> rfl

/-- A run of literal characters (no braces) met in text mode. -/
theorem foldlM_literal (render : List Char → F64 → Option (List Char)) :
    ∀ (s out : List Char) (args : List F64), '{' ∉ s → '}' ∉ s →
      s.foldlM (step render) ⟨Mode.text, out, args⟩ = some ⟨Mode.text, out ++ s, args⟩ := by
  intro s
  induction s with
  | nil => intro out args _ _; simp
  | cons c s ih =>
    intro out args h1 h2
    have hc1 : c ≠ '{' := fun e => h1 (by simp [e])
    have hc2 : c ≠ '}' := fun e => h2 (by simp [e])
    simp only [List.foldlM_cons, step, hc1, hc2, if_false, Option.bind_eq_bind,
      Option.some_bind]
    rw [ih _ _ (fun e => h1 (by simp [e])) (fun e => h2 (by simp [e]))]
    simp

theorem closeField_frame (render : List Char → F64 → Option (List Char)) (content : List Char)
    (m : Mode) (out : List Char) (args : List F64) (st' : State) (o0 : List Char)
    (rest : List F64) (h : closeField render content ⟨m, out, args⟩ = some st') :
    closeField render content ⟨m, o0 ++ out, args ++ rest⟩
      = some ⟨st'.mode, o0 ++ st'.out, st'.args ++ rest⟩ := by
  unfold closeField at h ⊢
  cases hf : fieldSpec content with
  | none => simp [hf] at h
  | some spec =>
    cases args with
    | nil => simp [hf] at h
    | cons x r =>
      simp only [hf, List.cons_append] at h ⊢
      cases hr : renderSpec render spec x with
      | none => simp [hr] at h
      | some t =>
        simp only [hr, Option.some.injEq] at h ⊢
        subst h
        simp

theorem step_frame (render : List Char → F64 → Option (List Char))
    (m : Mode) (out : List Char) (args : List F64) (c : Char) (st' : State) (o0 : List Char)
    (rest : List F64) (h : step render ⟨m, out, args⟩ c = some st') :
    step render ⟨m, o0 ++ out, args ++ rest⟩ c
      = some ⟨st'.mode, o0 ++ st'.out, st'.args ++ rest⟩ := by
  cases m with
  | text =>
    simp only [step] at h ⊢
    split_ifs at h ⊢ <;> simp only [Option.some.injEq] at h <;> subst h <;> simp
  | afterOpen =>
    simp only [step] at h ⊢
    split_ifs at h ⊢
    · simp only [Option.some.injEq] at h; subst h; simp
    · exact closeField_frame render [] _ out args st' o0 rest h
    · simp only [Option.some.injEq] at h; subst h; simp
  | afterClose =>
    simp only [step] at h ⊢
    split_ifs at h ⊢
    simp only [Option.some.injEq] at h; subst h; simp
  | field content =>
    simp only [step] at h ⊢
    split_ifs at h ⊢
    · exact closeField_frame render content _ out args st' o0 rest h
    · simp only [Option.some.injEq] at h; subst h; simp

theorem run_frame (render : List Char → F64 → Option (List Char)) (o0 : List Char)
    (rest : List F64) :
    ∀ (s : List Char) (st st' : State), s.foldlM (step render) st = some st' →
      s.foldlM (step render) ⟨st.mode, o0 ++ st.out, st.args ++ rest⟩
        = some ⟨st'.mode, o0 ++ st'.out, st'.args ++ rest⟩ := by
  intro s
  induction s with
  | nil =>
    intro st st' h
    simp only [List.foldlM_nil, Option.pure_def, Option.some.injEq] at h ⊢
    subst h; rfl
  | cons c s ih =>
    intro st st' h
    simp only [List.foldlM_cons, Option.bind_eq_bind] at h ⊢
    cases hs : step render st c with
    | none => simp [hs] at h
    | some s1 =>
      simp only [hs, Option.some_bind] at h
      rw [step_frame render st.mode st.out st.args c s1 o0 rest hs, Option.some_bind]
      exact ih s1 st' h

theorem closeField_args (render : List Char → F64 → Option (List Char)) (content : List Char)
    (st st' : State) (h : closeField render content st = some st') :
    st'.mode = Mode.text ∧ ∃ x, st.args = x :: st'.args := by
  unfold closeField at h
  cases hf : fieldSpec content with
  | none => simp [hf] at h
  | some spec =>
    cases ha : st.args with
    | nil => simp [hf, ha] at h
    | cons x r =>
      simp only [hf, ha] at h
      cases hr : renderSpec render spec x with
      | none => simp [hr] at h
      | some t =>
        simp only [hr, Option.some.injEq] at h
        subst h
        exact ⟨rfl, x, rfl⟩

theorem step_args (render : List Char → F64 → Option (List Char)) (st st' : State) (c : Char)
    (h : step render st c = some st') :
    st'.args = st.args ∨ ∃ x, st.args = x :: st'.args := by
  unfold step at h
  cases hm : st.mode with
  | text =>
    simp only [hm] at h
    split_ifs at h <;> simp only [Option.some.injEq] at h <;> subst h <;> exact Or.inl rfl
  | afterOpen =>
    simp only [hm] at h
    split_ifs at h
    · simp only [Option.some.injEq] at h; subst h; exact Or.inl rfl
    · exact Or.inr (closeField_args render _ st st' h).2
    · simp only [Option.some.injEq] at h; subst h; exact Or.inl rfl
  | afterClose =>
    simp only [hm] at h
    split_ifs at h
    simp only [Option.some.injEq] at h; subst h; exact Or.inl rfl
  | field content =>
    simp only [hm] at h
    split_ifs at h
    · exact Or.inr (closeField_args render _ st st' h).2
    · simp only [Option.some.injEq] at h; subst h; exact Or.inl rfl

theorem run_args_le (render : List Char → F64 → Option (List Char)) :
    ∀ (s : List Char) (st st' : State), s.foldlM (step render) st = some st' →
      st'.args.length ≤ st.args.length := by
  intro s
  induction s with
  | nil =>
    intro st st' h
    simp only [List.foldlM_nil, Option.pure_def, Option.some.injEq] at h
    subst h; exact le_refl _
  | cons c s ih =>
    intro st st' h
    simp only [List.foldlM_cons, Option.bind_eq_bind] at h
    cases hs : step render st c with
    | none => simp [hs] at h
    | some s1 =>
      simp only [hs, Option.some_bind] at h
      have h1 := ih s1 st' h
      rcases step_args render st s1 c hs with e | ⟨x, e⟩
      · rw [e] at h1; exact h1
      · rw [e]; simp only [List.length_cons]; omega

/-- The mode reached and the number of arguments used do not depend on the
arguments or on the text produced so far. -/
theorem step_shape (render : List Char → F64 → Option (List Char)) (m : Mode)
    (o1 o2 : List Char) (a1 a2 : List F64) (c : Char) (s1 s2 : State)
    (h1 : step render ⟨m, o1, a1⟩ c = some s1) (h2 : step render ⟨m, o2, a2⟩ c = some s2) :
    s1.mode = s2.mode ∧ a1.length + s2.args.length = a2.length + s1.args.length := by
  cases m with
  | text =>
    simp only [step] at h1 h2
    split_ifs at h1 h2 <;> simp only [Option.some.injEq] at h1 h2 <;> subst h1 <;> subst h2 <;>
      exact ⟨rfl, by simp only []; omega⟩
  | afterOpen =>
    simp only [step] at h1 h2
    split_ifs at h1 h2
    · simp only [Option.some.injEq] at h1 h2; subst h1; subst h2
      exact ⟨rfl, by simp only []; omega⟩
    · obtain ⟨m1, x1, e1⟩ := closeField_args render _ _ _ h1
      obtain ⟨m2, x2, e2⟩ := closeField_args render _ _ _ h2
      simp only at e1 e2
      refine ⟨by rw [m1, m2], ?_⟩
      rw [e1, e2]; simp only [List.length_cons]; omega
    · simp only [Option.some.injEq] at h1 h2; subst h1; subst h2
      exact ⟨rfl, by simp only []; omega⟩
  | afterClose =>
    simp only [step] at h1 h2
    split_ifs at h1 h2
    simp only [Option.some.injEq] at h1 h2; subst h1; subst h2
    exact ⟨rfl, by simp only []; omega⟩
  | field content =>
    simp only [step] at h1 h2
    split_ifs at h1 h2
    · obtain ⟨m1, x1, e1⟩ := closeField_args render _ _ _ h1
      obtain ⟨m2, x2, e2⟩ := closeField_args render _ _ _ h2
      simp only at e1 e2
      refine ⟨by rw [m1, m2], ?_⟩
      rw [e1, e2]; simp only [List.length_cons]; omega
    · simp only [Option.some.injEq] at h1 h2; subst h1; subst h2
      exact ⟨rfl, by simp only []; omega⟩

theorem run_shape (render : List Char → F64 → Option (List Char)) :
    ∀ (s : List Char) (m : Mode) (o1 o2 : List Char) (a1 a2 : List F64) (s1 s2 : State),
      s.foldlM (step render) ⟨m, o1, a1⟩ = some s1 →
      s.foldlM (step render) ⟨m, o2, a2⟩ = some s2 →
      s1.mode = s2.mode ∧ a1.length + s2.args.length = a2.length + s1.args.length := by
  intro s
  induction s with
  | nil =>
    intro m o1 o2 a1 a2 s1 s2 h1 h2
    simp only [List.foldlM_nil, Option.pure_def, Option.some.injEq] at h1 h2
    subst h1; subst h2
    exact ⟨rfl, by simp only []; omega⟩
  | cons c s ih =>
    intro m o1 o2 a1 a2 s1 s2 h1 h2
    simp only [List.foldlM_cons, Option.bind_eq_bind] at h1 h2
    cases hs1 : step render ⟨m, o1, a1⟩ c with
    | none => simp [hs1] at h1
    | some t1 =>
      cases hs2 : step render ⟨m, o2, a2⟩ c with
      | none => simp [hs2] at h2
      | some t2 =>
        simp only [hs1, hs2, Option.some_bind] at h1 h2
        obtain ⟨e1, e2⟩ := step_shape render m o1 o2 a1 a2 c t1 t2 hs1 hs2
        obtain ⟨mt1, ot1, at1⟩ := t1
        obtain ⟨mt2, ot2, at2⟩ := t2
        simp only at e1 e2
        subst e1
        obtain ⟨e3, e4⟩ := ih mt1 ot1 ot2 at1 at2 s1 s2 h1 h2
        exact ⟨e3, by omega⟩

theorem closeField_restrict (render : List Char → F64 → Option (List Char))
    (content : List Char) (m : Mode) (o0 out : List Char) (args rest : List F64) (st' : State)
    (h : closeField render content ⟨m, o0 ++ out, args ++ rest⟩ = some st')
    (hlen : rest.length ≤ st'.args.length) :
    ∃ out' args', st'.out = o0 ++ out' ∧ st'.args = args' ++ rest ∧
      closeField render content ⟨m, out, args⟩ = some ⟨st'.mode, out', args'⟩ := by
  unfold closeField at h ⊢
  cases hf : fieldSpec content with
  | none => simp [hf] at h
  | some spec =>
    cases args with
    | nil =>
      exfalso
      simp only [hf, List.nil_append] at h
      cases rest with
      | nil => simp at h
      | cons x r =>
        simp only at h
        cases hr : renderSpec render spec x with
        | none => simp [hr] at h
        | some t =>
          simp only [hr, Option.some.injEq] at h
          subst h
          simp at hlen
    | cons x r =>
      simp only [hf, List.cons_append] at h ⊢
      cases hr : renderSpec render spec x with
      | none => simp [hr] at h
      | some t =>
        simp only [hr, Option.some.injEq] at h ⊢
        subst h
        exact ⟨out ++ t, r, by simp, rfl, rfl⟩

theorem step_restrict (render : List Char → F64 → Option (List Char))
    (m : Mode) (o0 out : List Char) (args rest : List F64) (c : Char) (st' : State)
    (h : step render ⟨m, o0 ++ out, args ++ rest⟩ c = some st')
    (hlen : rest.length ≤ st'.args.length) :
    ∃ out' args', st'.out = o0 ++ out' ∧ st'.args = args' ++ rest ∧
      step render ⟨m, out, args⟩ c = some ⟨st'.mode, out', args'⟩ := by
  cases m with
  | text =>
    simp only [step] at h ⊢
    split_ifs at h ⊢ <;> simp only [Option.some.injEq] at h <;> subst h
    · exact ⟨out, args, rfl, rfl, rfl⟩
    · exact ⟨out, args, rfl, rfl, rfl⟩
    · exact ⟨out ++ [c], args, by simp, rfl, rfl⟩
  | afterOpen =>
    simp only [step] at h ⊢
    split_ifs at h ⊢
    · simp only [Option.some.injEq] at h; subst h
      exact ⟨out ++ ['{'], args, by simp, rfl, rfl⟩
    · exact closeField_restrict render [] _ o0 out args rest st' h hlen
    · simp only [Option.some.injEq] at h; subst h
      exact ⟨out, args, rfl, rfl, rfl⟩
  | afterClose =>
    simp only [step] at h ⊢
    split_ifs at h ⊢
    simp only [Option.some.injEq] at h; subst h
    exact ⟨out ++ ['}'], args, by simp, rfl, rfl⟩
  | field content =>
    simp only [step] at h ⊢
    split_ifs at h ⊢
    · exact closeField_restrict render content _ o0 out args rest st' h hlen
    · simp only [Option.some.injEq] at h; subst h
      exact ⟨out, args, rfl, rfl, rfl⟩

/-- A run that leaves the trailing arguments `rest` untouched can be replayed
without them. -/
theorem run_restrict (render : List Char → F64 → Option (List Char)) (o0 : List Char)
    (rest : List F64) :
    ∀ (s : List Char) (m : Mode) (out : List Char) (args : List F64) (st' : State),
      s.foldlM (step render) ⟨m, o0 ++ out, args ++ rest⟩ = some st' →
      rest.length ≤ st'.args.length →
      ∃ out' args', st'.out = o0 ++ out' ∧ st'.args = args' ++ rest ∧
        s.foldlM (step render) ⟨m, out, args⟩ = some ⟨st'.mode, out', args'⟩ := by
  intro s
  induction s with
  | nil =>
    intro m out args st' h _
    simp only [List.foldlM_nil, Option.pure_def, Option.some.injEq] at h ⊢
    subst h
    exact ⟨out, args, rfl, rfl, rfl⟩
  | cons c s ih =>
    intro m out args st' h hlen
    simp only [List.foldlM_cons, Option.bind_eq_bind] at h ⊢
    cases hs : step render ⟨m, o0 ++ out, args ++ rest⟩ c with
    | none => simp [hs] at h
    | some s1 =>
      simp only [hs, Option.some_bind] at h
      have hle := run_args_le render s s1 st' h
      obtain ⟨out1, args1, e1, e2, e3⟩ :=
        step_restrict render m o0 out args rest c s1 hs (le_trans hlen hle)
      obtain ⟨m1, so1, sa1⟩ := s1
      simp only at e1 e2 e3 h
      subst e1; subst e2
      rw [e3, Option.some_bind]
      exact ih m1 out1 args1 st' h hlen

theorem run_field_exit (render : List Char → F64 → Option (List Char)) :
    ∀ (s : List Char) (content out : List Char) (args : List F64) (st' : State),
      s.foldlM (step render) ⟨Mode.field content, out, args⟩ = some st' →
      (∃ content', st'.mode = Mode.field content') ∨ st'.args.length < args.length := by
  intro s
  induction s with
  | nil =>
    intro content out args st' h
    simp only [List.foldlM_nil, Option.pure_def, Option.some.injEq] at h
    subst h
    exact Or.inl ⟨content, rfl⟩
  | cons c s ih =>
    intro content out args st' h
    simp only [List.foldlM_cons, Option.bind_eq_bind] at h
    cases hs : step render ⟨Mode.field content, out, args⟩ c with
    | none => simp [hs] at h
    | some s1 =>
      simp only [hs, Option.some_bind] at h
      simp only [step] at hs
      split_ifs at hs
      · obtain ⟨_, x, e⟩ := closeField_args render _ _ _ hs
        simp only at e
        have := run_args_le render s s1 st' h
        right
        rw [e]; simp only [List.length_cons]; omega
      · simp only [Option.some.injEq] at hs
        subst hs
        exact ih _ out args st' h

theorem run_end_mode (render : List Char → F64 → Option (List Char)) (s : List Char)
    (st st' : State) (h : (s ++ ['}']).foldlM (step render) st = some st') :
    st'.mode = Mode.text ∨ st'.mode = Mode.afterClose := by
  simp only [List.foldlM_append, Option.bind_eq_bind] at h
  cases hs : s.foldlM (step render) st with
  | none => simp [hs] at h
  | some s1 =>
    simp only [hs, Option.some_bind, List.foldlM_cons, List.foldlM_nil] at h
    cases hc : step render s1 '}' with
    | none => simp [hc] at h
    | some s2 =>
      simp only [hc, Option.some_bind, Option.pure_def, Option.bind_eq_bind,
        Option.some.injEq] at h
      subst h
      have h1 : ('}' : Char) ≠ '{' := by decide
      unfold step at hc
      cases hm : s1.mode with
      | text =>
        simp only [hm, h1, if_false, if_true, Option.some.injEq] at hc
        subst hc; exact Or.inr rfl
      | afterOpen =>
        simp only [hm, h1, if_false, if_true] at hc
        exact Or.inl (closeField_args render _ _ _ hc).1
      | afterClose =>
        simp only [hm, if_true, Option.some.injEq] at hc
        subst hc; exact Or.inl rfl
      | field content =>
        simp only [hm, if_true] at hc
        exact Or.inl (closeField_args render _ _ _ hc).1

theorem oneField_consumes (render : List Char → F64 → Option (List Char)) (t out : List Char)
    (args : List F64) (st' : State)
    (h : (oneField t).foldlM (step render) ⟨Mode.text, out, args⟩ = some st') :
    st'.args.length < args.length := by
  have h1 : (':' : Char) ≠ '{' := by decide
  have h2 : (':' : Char) ≠ '}' := by decide
  have h3 : ('}' : Char) ≠ '{' := by decide
  unfold oneField at h
  split_ifs at h with ht
  · simp only [List.foldlM_cons, List.foldlM_nil, step, if_true, Option.bind_eq_bind,
      Option.some_bind, h3, if_false] at h
    cases hc : closeField render [] ⟨Mode.afterOpen, out, args⟩ with
    | none => simp [hc] at h
    | some s1 =>
      simp only [hc, Option.some_bind, Option.pure_def, Option.some.injEq] at h
      subst h
      obtain ⟨_, x, e⟩ := closeField_args render _ _ _ hc
      simp only at e
      rw [e]; simp
  · have hend := run_end_mode render (['{', ':'] ++ t) _ st' h
    simp only [List.cons_append, List.nil_append, List.foldlM_cons, step, if_true,
      Option.bind_eq_bind, Option.some_bind, h1, h2, if_false] at h
    rcases run_field_exit render _ _ _ _ st' h with ⟨content', hm⟩ | hlt
    · rw [hm] at hend
      rcases hend with e | e <;> exact absurd e (by simp)
    · exact hlt

/-- A single-number rendering that succeeds is reproduced inside a longer
argument list. -/
theorem oneField_ok (render : List Char → F64 → Option (List Char)) (t : List Char) (x : F64)
    (tx : List Char) (h : renderOne render t x = some tx) (out : List Char) (rest : List F64) :
    (oneField t).foldlM (step render) ⟨Mode.text, out, x :: rest⟩
      = some ⟨Mode.text, out ++ tx, rest⟩ := by
  unfold renderOne formatTo at h
  cases hr : (oneField t).foldlM (step render) ⟨Mode.text, [], [x]⟩ with
  | none => simp [hr] at h
  | some st =>
    simp only [hr] at h
    split_ifs at h with hm
    simp only [Option.some.injEq] at h
    have hlen := oneField_consumes render t [] [x] st hr
    have hargs : st.args = [] := by
      cases ha : st.args with
      | nil => rfl
      | cons y ys => rw [ha] at hlen; simp at hlen
    have := run_frame render out rest (oneField t) _ st hr
    simp only [List.append_nil, List.cons_append, List.nil_append, hm, h, hargs] at this
    exact this

/-- A run over one field inside a longer argument list that uses exactly one
argument is a single-number rendering. -/
theorem oneField_single (render : List Char → F64 → Option (List Char)) (t out : List Char)
    (x : F64) (rest : List F64) (s1 : State)
    (h : (oneField t).foldlM (step render) ⟨Mode.text, out, x :: rest⟩ = some s1)
    (hm : s1.mode = Mode.text) (hn : s1.args.length = rest.length) :
    ∃ tx, renderOne render t x = some tx ∧ s1 = ⟨Mode.text, out ++ tx, rest⟩ := by
  have h' : (oneField t).foldlM (step render) ⟨Mode.text, out ++ [], [x] ++ rest⟩ = some s1 := by
    simpa using h
  obtain ⟨out', args', e1, e2, e3⟩ :=
    run_restrict render out rest (oneField t) Mode.text [] [x] s1 h' (by omega)
  have hargs : args' = [] := by
    have hl := congrArg List.length e2
    rw [List.length_append, hn] at hl
    exact List.eq_nil_of_length_eq_zero (by omega)
  subst hargs
  refine ⟨out', ?_, ?_⟩
  · unfold renderOne formatTo
    rw [e3, hm]
    simp
  · obtain ⟨m1, o1, a1⟩ := s1
    simp only at hm e1 e2
    subst hm; subst e1; subst e2
    simp

/-- A literal separator right after a field. -/
theorem literal_after_field (render : List Char → F64 → Option (List Char)) (s1 s2 : State)
    (c : Char) (cs : List Char) (hmode : s1.mode = Mode.text ∨ s1.mode = Mode.afterClose)
    (hc1 : c ≠ '{') (hc2 : c ≠ '}') (h1 : '{' ∉ cs) (h2 : '}' ∉ cs)
    (h : (c :: cs).foldlM (step render) s1 = some s2) :
    s1.mode = Mode.text ∧ s2 = ⟨Mode.text, s1.out ++ c :: cs, s1.args⟩ := by
  obtain ⟨m1, o1, a1⟩ := s1
  simp only at hmode
  rcases hmode with rfl | rfl
  · have := foldlM_literal render (c :: cs) o1 a1
      (by simp [hc1.symm, h1]) (by simp [hc2.symm, h2])
    rw [this] at h
    simp only [Option.some.injEq] at h
    exact ⟨rfl, h.symm⟩
  · simp [List.foldlM_cons, step, hc2] at h

theorem foldlM_append_some (render : List Char → F64 → Option (List Char)) (s t : List Char)
    (st st' : State) (h : (s ++ t).foldlM (step render) st = some st') :
    ∃ mid, s.foldlM (step render) st = some mid ∧ t.foldlM (step render) mid = some st' := by
  rw [List.foldlM_append] at h
  cases hs : s.foldlM (step render) st with
  | none => simp [hs] at h
  | some mid => exact ⟨mid, rfl, by simpa [hs] using h⟩

theorem oneField_end_mode (render : List Char → F64 → Option (List Char)) (t : List Char)
    (st st' : State) (h : (oneField t).foldlM (step render) st = some st') :
    st'.mode = Mode.text ∨ st'.mode = Mode.afterClose := by
  unfold oneField at h
  split_ifs at h
  · exact run_end_mode render ['{'] st st' h
  · exact run_end_mode render (['{', ':'] ++ t) st st' h

theorem formatTo_eq_some (render : List Char → F64 → Option (List Char)) (f : List Char)
    (args : List F64) (r : List Char) :
    formatTo render f args = some r ↔
      ∃ st, f.foldlM (step render) ⟨Mode.text, [], args⟩ = some st ∧ st.mode = Mode.text ∧
        st.out = r := by
  unfold formatTo
  generalize f.foldlM (step render) ⟨Mode.text, [], args⟩ = res
  cases res with
  | none => simp
  | some st =>
    simp only [Option.some.injEq, exists_eq_left']
    split_ifs with hm
    · simp [hm]
    · simp [hm]

theorem formatTo_fields_some (render : List Char → F64 → Option (List Char)) (t : List Char)
    (value : Oklab) (r : List Char)
    (h : formatTo render (['('] ++ oneField t ++ [',', ' '] ++ oneField t ++ [',', ' ']
        ++ oneField t ++ [',', ' '] ++ oneField t ++ [')'])
        [value.l, value.a, value.b, value.alpha] = some r) :
    parenthesized (renderOne render t) value = some r := by
  have lit0 := foldlM_literal render ['('] [] [value.l, value.a, value.b, value.alpha]
    (by decide) (by decide)
  have hc1 : (',' : Char) ≠ '{' := by decide
  have hc2 : (',' : Char) ≠ '}' := by decide
  have hp1 : (')' : Char) ≠ '{' := by decide
  have hp2 : (')' : Char) ≠ '}' := by decide
  have hs1 : '{' ∉ [' '] := by decide
  have hs2 : '}' ∉ [' '] := by decide
  obtain ⟨st, hrun, hmode, hout⟩ := (formatTo_eq_some render _ _ r).1 h
  obtain ⟨S7, hA, hL4⟩ := foldlM_append_some render _ _ _ _ hrun
  obtain ⟨S6, hA, hP4⟩ := foldlM_append_some render _ _ _ _ hA
  obtain ⟨S5, hA, hL3⟩ := foldlM_append_some render _ _ _ _ hA
  obtain ⟨S4, hA, hP3⟩ := foldlM_append_some render _ _ _ _ hA
  obtain ⟨S3, hA, hL2⟩ := foldlM_append_some render _ _ _ _ hA
  obtain ⟨S2, hA, hP2⟩ := foldlM_append_some render _ _ _ _ hA
  obtain ⟨S1, hA, hL1⟩ := foldlM_append_some render _ _ _ _ hA
  obtain ⟨S0, hL0, hP1⟩ := foldlM_append_some render _ _ _ _ hA
  rw [lit0] at hL0
  simp only [Option.some.injEq, List.nil_append] at hL0
  subst hL0
  obtain ⟨m1, e2⟩ := literal_after_field render S1 S2 ',' [' ']
    (oneField_end_mode render t _ _ hP1) hc1 hc2 hs1 hs2 hL1
  subst e2
  obtain ⟨m3, e4⟩ := literal_after_field render S3 S4 ',' [' ']
    (oneField_end_mode render t _ _ hP2) hc1 hc2 hs1 hs2 hL2
  subst e4
  obtain ⟨m5, e6⟩ := literal_after_field render S5 S6 ',' [' ']
    (oneField_end_mode render t _ _ hP3) hc1 hc2 hs1 hs2 hL3
  subst e6
  obtain ⟨m7, e8⟩ := literal_after_field render S7 st ')' []
    (oneField_end_mode render t _ _ hP4) hp1 hp2 (by simp) (by simp) hL4
  subst e8
  have c1 := oneField_consumes render t _ _ S1 hP1
  have c2 := oneField_consumes render t _ _ S3 hP2
  have c3 := oneField_consumes render t _ _ S5 hP3
  have c4 := oneField_consumes render t _ _ S7 hP4
  have q2 := (run_shape render (oneField t) Mode.text _ _ _ _ S1 S3 hP1 hP2).2
  have q3 := (run_shape render (oneField t) Mode.text _ _ _ _ S1 S5 hP1 hP3).2
  have q4 := (run_shape render (oneField t) Mode.text _ _ _ _ S1 S7 hP1 hP4).2
  simp only [List.length_cons, List.length_nil] at c1 c2 c3 c4 q2 q3 q4
  obtain ⟨tl, r1, e1⟩ := oneField_single render t _ value.l _ S1 hP1 m1
    (by simp only [List.length_cons, List.length_nil]; omega)
  subst e1
  simp only [List.length_cons, List.length_nil] at hP2 c2 c3 c4 q2 q3 q4
  obtain ⟨ta, r2, e3⟩ := oneField_single render t _ value.a _ S3 hP2 m3
    (by simp only [List.length_cons, List.length_nil]; omega)
  subst e3
  simp only [List.length_cons, List.length_nil] at hP3 c3 c4 q3 q4
  obtain ⟨tb, r3, e5⟩ := oneField_single render t _ value.b _ S5 hP3 m5
    (by simp only [List.length_cons, List.length_nil]; omega)
  subst e5
  simp only [List.length_cons, List.length_nil] at hP4 c4 q4
  obtain ⟨tw, r4, e7⟩ := oneField_single render t _ value.alpha _ S7 hP4 m7
    (by simp only [List.length_cons, List.length_nil]; omega)
  subst e7
  simp only at hout
  simp only [parenthesized, r1, r2, r3, r4, Option.some_bind, Option.some.injEq]
  rw [← hout]

theorem formatTo_fields_of_some (render : List Char → F64 → Option (List Char))
    (t : List Char) (value : Oklab) (r : List Char)
    (h : parenthesized (renderOne render t) value = some r) :
    formatTo render (['('] ++ oneField t ++ [',', ' '] ++ oneField t ++ [',', ' ']
        ++ oneField t ++ [',', ' '] ++ oneField t ++ [')'])
        [value.l, value.a, value.b, value.alpha] = some r := by
  have lit0 := foldlM_literal render ['('] [] [value.l, value.a, value.b, value.alpha]
    (by decide) (by decide)
  have lit2 : ∀ (out : List Char) (args : List F64),
      [',', ' '].foldlM (step render) ⟨Mode.text, out, args⟩
        = some ⟨Mode.text, out ++ [',', ' '], args⟩ :=
    fun out args => foldlM_literal render [',', ' '] out args (by decide) (by decide)
  have lit3 : ∀ (out : List Char) (args : List F64),
      [')'].foldlM (step render) ⟨Mode.text, out, args⟩
        = some ⟨Mode.text, out ++ [')'], args⟩ :=
    fun out args => foldlM_literal render [')'] out args (by decide) (by decide)
  unfold parenthesized at h
  cases r1 : renderOne render t value.l with
  | none => simp [r1] at h
  | some tl =>
    cases r2 : renderOne render t value.a with
    | none => simp [r1, r2] at h
    | some ta =>
      cases r3 : renderOne render t value.b with
      | none => simp [r1, r2, r3] at h
      | some tb =>
        cases r4 : renderOne render t value.alpha with
        | none => simp [r1, r2, r3, r4] at h
        | some tw =>
          simp only [r1, r2, r3, r4, Option.some_bind, Option.some.injEq] at h
          rw [formatTo_eq_some]
          refine ⟨⟨Mode.text, r, []⟩, ?_, rfl, rfl⟩
          simp only [List.foldlM_append, lit0, Option.bind_eq_bind, Option.some_bind,
            oneField_ok render t _ _ r1, oneField_ok render t _ _ r2,
            oneField_ok render t _ _ r3, oneField_ok render t _ _ r4, lit2, lit3,
            List.nil_append, h]

/-- The four-field format string against the four channels, for any tag. -/
theorem formatTo_fields (render : List Char → F64 → Option (List Char)) (t : List Char)
    (value : Oklab) :
    formatTo render (['('] ++ oneField t ++ [',', ' '] ++ oneField t ++ [',', ' ']
        ++ oneField t ++ [',', ' '] ++ oneField t ++ [')'])
        [value.l, value.a, value.b, value.alpha]
      = parenthesized (renderOne render t) value := by
  cases hR : parenthesized (renderOne render t) value with
  | some r => exact formatTo_fields_of_some render t value r hR
  | none =>
    cases hL : formatTo render (['('] ++ oneField t ++ [',', ' '] ++ oneField t ++ [',', ' ']
        ++ oneField t ++ [',', ' '] ++ oneField t ++ [')'])
        [value.l, value.a, value.b, value.alpha] with
    | none => rfl
    | some r =>
      have := formatTo_fields_some render t value r hL
      rw [hR] at this
      exact absurd this (by simp)

theorem GetFormatTag_no_close (ctx : List Char) : '}' ∉ GetFormatTag [] ctx := by
  unfold GetFormatTag
  intro h
  rw [List.nil_append] at h
  have := List.mem_takeWhile_imp h
  simp at this

theorem renderOne_eq_renderSpec (render : List Char → F64 → Option (List Char))
    (t : List Char) (ht : '}' ∉ t) (x : F64) : renderOne render t x = renderSpec render t x := by
  unfold renderOne formatTo oneField
  cases t with
  | nil =>
    simp only [List.isEmpty_nil, if_true, foldlM_emptyField]
    cases renderSpec render [] x <;> simp
  | cons c t =>
    simp only [List.isEmpty_cons, Bool.false_eq_true, if_false]
    have e : ['{', ':'] ++ (c :: t) ++ ['}'] = '{' :: ':' :: ((c :: t) ++ ['}']) := rfl
    rw [e, foldlM_replacement render (c :: t) [] x [] ht]
    cases renderSpec render (c :: t) x <;> simp

theorem format_eq_formatTo (render : List Char → F64 → Option (List Char)) (t : List Char)
    (value : Oklab) :
    Formatter.format render ⟨t⟩ value
      = formatTo render (['('] ++ oneField t ++ [',', ' '] ++ oneField t ++ [',', ' ']
          ++ oneField t ++ [',', ' '] ++ oneField t ++ [')'])
          [value.l, value.a, value.b, value.alpha] := by
  unfold Formatter.format
  cases t with
  | nil => rfl
  | cons c t =>
    simp only [List.isEmpty_cons, Bool.false_eq_true, if_false]
    congr 1
    simp [taggedFormat, oneField]

theorem takeWhile_upto_close (spec rest : List Char) (h : '}' ∉ spec) :
    (spec ++ '}' :: rest).takeWhile (fun c => c != '}') = spec := by
  induction spec with
  | nil => simp [List.takeWhile]
  | cons c spec ih =>
    simp only [List.mem_cons, not_or] at h
    have hc : (c != '}') = true := by
      simp only [bne_iff_ne, ne_eq]
      exact fun e => h.1 e.symm
    simp only [List.cons_append, List.takeWhile, hc]
    exact congrArg (List.cons c) (ih h.2)

theorem parse_tag (spec rest : List Char) (h : '}' ∉ spec) :
    (Formatter.parse (spec ++ '}' :: rest)).tag = spec := by
  simp only [Formatter.parse, GetFormatTag, List.nil_append]
  exact takeWhile_upto_close spec rest h

theorem format_parse (render : List Char → F64 → Option (List Char)) (spec rest : List Char)
    (h : '}' ∉ spec) (value : Oklab) :
    Formatter.format render (Formatter.parse (spec ++ '}' :: rest)) value
      = parenthesized (renderSpec render spec) value := by
  have e : Formatter.parse (spec ++ '}' :: rest) = ⟨spec⟩ := by
    have := parse_tag spec rest h
    cases hp : Formatter.parse (spec ++ '}' :: rest) with
    | mk tag => rw [hp] at this; simpa using this
  have e2 : renderOne render spec = renderSpec render spec := by
    funext x
    exact renderOne_eq_renderSpec render spec h x
  rw [e, format_eq_formatTo, formatTo_fields, e2]

/-- C6: `parse` stores as tag the format specification of the replacement field,
that is the characters of the parse context up to the first closing brace (so a
stored tag holds no closing brace), and `format` after `parse` produces `(`
F(l) `, ` F(a) `, ` F(b) `, ` F(alpha) `)`, where `F` is the library's number
rendering under that specification, the same for all four fields (and a format
error as soon as one of the four renderings is one).  For every tag `t` at all,
`format` produces that shape with `F` the rendering of one number under the
format string of a single field built from `t`, which for a tag without closing
brace is the number rendering under the specification `t` and for the empty tag
the default rendering.  `operator<<`, on a stream with no pending field width,
appends `(`, the four fields in the order l, a, b, alpha separated by a comma
and a space, and `)`. -/
theorem formatter_and_stream_shape (render : List Char → F64 → Option (List Char))
    (put : F64 → List Char) (output : Ostream) (value : Oklab) (t : List Char) :
    Formatter.format render ⟨t⟩ value = parenthesized (renderOne render t) value ∧
    (∀ ctx : List Char, '}' ∉ (Formatter.parse ctx).tag) ∧
    (∀ spec rest : List Char, '}' ∉ spec →
      (Formatter.parse (spec ++ '}' :: rest)).tag = spec ∧
      Formatter.format render (Formatter.parse (spec ++ '}' :: rest)) value
        = parenthesized (renderSpec render spec) value) ∧
    ('}' ∉ t → renderOne render t = renderSpec render t) ∧
    (renderOne render [] = render []) ∧
    Oklab.opShl put output value
      = output ++ (['('] ++ put value.l ++ [',', ' '] ++ put value.a ++ [',', ' ']
          ++ put value.b ++ [',', ' '] ++ put value.alpha ++ [')']) := by
  refine ⟨?_, fun ctx => GetFormatTag_no_close ctx, ?_, ?_, ?_, ?_⟩
  · rw [format_eq_formatTo, formatTo_fields]
  · intro spec rest h
    exact ⟨parse_tag spec rest h, format_parse render spec rest h value⟩
  · intro ht
    funext x
    exact renderOne_eq_renderSpec render t ht x
  · funext x
    rw [renderOne_eq_renderSpec render [] (by simp) x]
    simp [renderSpec]
  · simp [Oklab.opShl, Ostream.putChar, Ostream.putDouble]

/-- Witness for C6: a replacement field with the specification `.3f` hands
`parse` the context that starts with `.3f` and the closing brace; the tag stored
is `.3f` and, with a rendering that echoes the specification, `format` after
`parse` produces `(.3f, .3f, .3f, .3f)`. -/
theorem formatter_and_stream_shape_witness :
    '}' ∉ ['.', '3', 'f'] ∧
    ((Formatter.parse (['.', '3', 'f'] ++ '}' :: [])).tag = ['.', '3', 'f'] ∧
      Formatter.format (fun spec _ => some spec) (Formatter.parse (['.', '3', 'f'] ++ '}' :: []))
          ⟨F64.one, F64.zero, F64.zero, F64.one⟩
        = parenthesized (renderSpec (fun spec _ => some spec) ['.', '3', 'f'])
          ⟨F64.one, F64.zero, F64.zero, F64.one⟩) ∧
    Formatter.format (fun spec _ => some spec) (Formatter.parse ['.', '3', 'f', '}'])
        ⟨F64.one, F64.zero, F64.zero, F64.one⟩
      = some ['(', '.', '3', 'f', ',', ' ', '.', '3', 'f', ',', ' ', '.', '3', 'f', ',', ' ',
          '.', '3', 'f', ')'] :=
  ⟨by decide,
    (formatter_and_stream_shape (fun spec _ => some spec) (fun _ => []) []
      ⟨F64.one, F64.zero, F64.zero, F64.one⟩ []).2.2.1 ['.', '3', 'f'] [] (by decide),
    by decide⟩

end Fmt

/-! ## Number extraction lemmas and claims -/

namespace NumScan

theorem Consistent_init : Consistent init := by
  simp [Consistent, init]

theorem Consistent_step (st st' : NumScan) (c : Char) (h : st.step c = some st')
    (hi : Consistent st) : Consistent st' := by
  obtain ⟨i1, i2, i3⟩ := hi
  unfold step at h
  split_ifs at h <;> simp only [Option.some.injEq] at h <;> subst h <;>
    simp_all [Consistent]

theorem Consistent_scan : ∀ (t : List Char) (st : NumScan), Consistent st →
    Consistent (scan st t).1 := by
  intro t
  induction t with
  | nil => intro st h; simpa [scan] using h
  | cons d t ih =>
    intro st h
    simp only [scan]
    cases hs : st.step d with
    | none => simpa using h
    | some st' => exact ih st' (Consistent_step st st' d hs h)

/-- After a complete number, a character other than a digit, the decimal point
and the exponent letters is not accepted. -/
theorem step_none_of_complete (st : NumScan) (x : F64) (c : Char) (hi : Consistent st)
    (hx : st.convert = some x) (hc : continuesNumber c = false) : st.step c = none := by
  obtain ⟨i1, i2, _⟩ := hi
  simp only [continuesNumber, Bool.or_eq_false_iff, beq_eq_false_iff_ne, ne_eq] at hc
  obtain ⟨⟨⟨h1, e1⟩, e2⟩, e3⟩ := hc
  have hm : st.foundMantissa = true ∧ ¬ (st.foundSci = true ∧ st.expDigits = 0) := by
    unfold convert at hx
    split_ifs at hx with h
    simp only [Bool.or_eq_true, Bool.not_eq_true', Bool.and_eq_true, beq_iff_eq, not_or,
      Bool.not_eq_false, not_and] at h
    exact ⟨h.1, fun hh => h.2 hh.1 hh.2⟩
  have hs : st.atStart = false := by
    cases ha : st.atStart with
    | false => rfl
    | true => have := i2 ha; rw [hm.1] at this; exact absurd this (by simp)
  have he : st.afterExp = false := by
    cases ha : st.afterExp with
    | false => rfl
    | true => exact absurd (i1 ha) hm.2
  simp [step, h1, e1, e2, e3, hs, he]

theorem endsAt_of_not_continuesNumber (t : List Char) (x : F64) (c : Char)
    (h : readsAs t x) (hc : continuesNumber c = false) : endsAt t c :=
  step_none_of_complete _ x c (Consistent_scan t init Consistent_init) h.2.1 hc

theorem isSpace_false_of_step (st st' : NumScan) (c : Char) (h : st.step c = some st') :
    Istream.isSpace c = false := by
  by_contra hc
  have hsp : Istream.isSpace c = true := by simpa using hc
  simp only [Istream.isSpace, Bool.or_eq_true, decide_eq_true_eq] at hsp
  have hnone : st.step c = none := by
    rcases hsp with ((((e | e) | e) | e) | e) | e <;> subst e <;> simp [step]
  rw [hnone] at h
  exact absurd h (by simp)

/-- Scanning a token followed by a character that is not accepted after it
stops exactly at that character. -/
theorem scan_append (c : Char) (rest : List Char) :
    ∀ (t : List Char) (st : NumScan), (scan st t).2 = [] → (scan st t).1.step c = none →
      scan st (t ++ c :: rest) = ((scan st t).1, c :: rest) := by
  intro t
  induction t with
  | nil =>
    intro st _ hc
    simp only [scan] at hc
    simp [scan, hc]
  | cons d t ih =>
    intro st h hc
    simp only [List.cons_append, scan] at h hc ⊢
    cases hs : st.step d with
    | none => simp [hs] at h
    | some st' =>
      simp only [hs] at h hc ⊢
      exact ih st' h hc

theorem dropWhile_isSpace_token (t : List Char) (x : F64) (tail : List Char)
    (h : readsAs t x) :
    (t ++ tail).dropWhile Istream.isSpace = t ++ tail := by
  cases t with
  | nil =>
    obtain ⟨_, h2, _⟩ := h
    simp [scan, convert, init] at h2
  | cons d t =>
    obtain ⟨h1, _, _⟩ := h
    simp only [scan] at h1
    cases hs : init.step d with
    | none => simp [hs] at h1
    | some st' =>
      have := isSpace_false_of_step _ _ _ hs
      simp [List.dropWhile, this]

end NumScan

namespace Istream

theorem getChar_cons (c : Char) (cs : List Char) (h : isSpace c = false) :
    getChar ⟨c :: cs, false⟩ = ⟨cs, false⟩ := by
  simp [getChar, List.dropWhile, h]

/-- Extraction of a numeric token that is followed by a character which is not
accepted after it. -/
theorem getDouble_token (t : List Char) (x : F64) (c : Char) (rest : List Char) (old : F64)
    (h : NumScan.readsAs t x) (hc : NumScan.endsAt t c) :
    getDouble ⟨t ++ c :: rest, false⟩ old = (⟨c :: rest, false⟩, x) := by
  obtain ⟨h1, h2, h3⟩ := h
  have hd := NumScan.dropWhile_isSpace_token t x (c :: rest) ⟨h1, h2, h3⟩
  have hs := NumScan.scan_append c rest t NumScan.init h1 hc
  simp only [getDouble, Bool.false_eq_true, if_false, hd]
  cases t with
  | nil => simp [NumScan.scan, NumScan.convert, NumScan.init] at h2
  | cons d t =>
    simp only [List.cons_append] at hs ⊢
    simp only [hs, h2, h3, Bool.false_eq_true, if_false]

end Istream

namespace Oklab

/-- C7 (as stated, refuted): `1`, `2`, `3`, `4` are numeric tokens and `(`, `,`,
`)`, `5`, `.`, `e`, `E` are not whitespace.  Surrounded and separated by `(`, `,`,
`,`, `,`, `)` the tokens are read as `(1, 2, 3, 4)` without error.  With `5`,
`.`, `e` or `E` in the second skipped position the first field swallows that
character and the next token (`l` becomes 152, 1.2, 100, 100), and the input
ends before `alpha`, which keeps its old value while `failbit` is set.  With
`5` in the last skipped position and one more character behind it, `alpha`
becomes 45 and `failbit` stays clear. -/
theorem opShr_separator_matters :
    NumScan.readsAs ['1'] F64.one ∧ NumScan.readsAs ['2'] ⟨false, 1024, 0⟩ ∧
    NumScan.readsAs ['3'] ⟨false, 1024, 2251799813685248⟩ ∧
    NumScan.readsAs ['4'] ⟨false, 1025, 0⟩ ∧
    (∀ c ∈ ['(', ',', ')', '5', '.', 'e', 'E'], Istream.isSpace c = false) ∧
    opShr ⟨'(' :: (['1'] ++ ',' :: (['2'] ++ ',' :: (['3'] ++ ',' :: (['4'] ++ ')' :: [])))),
        false⟩ ⟨F64.zero, F64.zero, F64.zero, F64.one⟩
      = (⟨[], false⟩, ⟨F64.one, ⟨false, 1024, 0⟩, ⟨false, 1024, 2251799813685248⟩,
          ⟨false, 1025, 0⟩⟩) ∧
    opShr ⟨'(' :: (['1'] ++ '5' :: (['2'] ++ ',' :: (['3'] ++ ',' :: (['4'] ++ ')' :: [])))),
        false⟩ ⟨F64.zero, F64.zero, F64.zero, F64.one⟩
      = (⟨[], true⟩, ⟨⟨false, 1030, 844424930131968⟩, ⟨false, 1024, 2251799813685248⟩,
          ⟨false, 1025, 0⟩, F64.one⟩) ∧
    opShr ⟨'(' :: (['1'] ++ '.' :: (['2'] ++ ',' :: (['3'] ++ ',' :: (['4'] ++ ')' :: [])))),
        false⟩ ⟨F64.zero, F64.zero, F64.zero, F64.one⟩
      = (⟨[], true⟩, ⟨⟨false, 1023, 900719925474099⟩, ⟨false, 1024, 2251799813685248⟩,
          ⟨false, 1025, 0⟩, F64.one⟩) ∧
    opShr ⟨'(' :: (['1'] ++ 'e' :: (['2'] ++ ',' :: (['3'] ++ ',' :: (['4'] ++ ')' :: [])))),
        false⟩ ⟨F64.zero, F64.zero, F64.zero, F64.one⟩
      = (⟨[], true⟩, ⟨⟨false, 1029, 2533274790395904⟩, ⟨false, 1024, 2251799813685248⟩,
          ⟨false, 1025, 0⟩, F64.one⟩) ∧
    opShr ⟨'(' :: (['1'] ++ 'E' :: (['2'] ++ ',' :: (['3'] ++ ',' :: (['4'] ++ ')' :: [])))),
        false⟩ ⟨F64.zero, F64.zero, F64.zero, F64.one⟩
      = (⟨[], true⟩, ⟨⟨false, 1029, 2533274790395904⟩, ⟨false, 1024, 2251799813685248⟩,
          ⟨false, 1025, 0⟩, F64.one⟩) ∧
    opShr ⟨'(' :: (['1'] ++ ',' :: (['2'] ++ ',' :: (['3'] ++ ',' :: (['4'] ++ '5' :: [')'])))),
        false⟩ ⟨F64.zero, F64.zero, F64.zero, F64.one⟩
      = (⟨[], false⟩, ⟨F64.one, ⟨false, 1024, 0⟩, ⟨false, 1024, 2251799813685248⟩,
          ⟨false, 1028, 1829587348619264⟩⟩) := by
  decide!

/-- C7 (amended): when four numeric tokens are surrounded and separated by
single characters that are not whitespace, and the field of each token ends
before the character that follows it, `operator>>` ends with `failbit` clear,
consumes the text up to and including the fifth skipped character, and stores
the four numbers in `l`, `a`, `b`, `alpha` in order, whatever the skipped
characters are.  The field of a token ends before every character other than a
digit, the decimal point and the exponent letters `e` and `E`. -/
theorem opShr_lenient (c0 c1 c2 c3 c4 : Char) (t1 t2 t3 t4 : List Char)
    (x1 x2 x3 x4 : F64) (rest : List Char) (value : Oklab)
    (h0 : Istream.isSpace c0 = false)
    (h1 : Istream.isSpace c1 = false ∧ NumScan.endsAt t1 c1)
    (h2 : Istream.isSpace c2 = false ∧ NumScan.endsAt t2 c2)
    (h3 : Istream.isSpace c3 = false ∧ NumScan.endsAt t3 c3)
    (h4 : Istream.isSpace c4 = false ∧ NumScan.endsAt t4 c4)
    (r1 : NumScan.readsAs t1 x1) (r2 : NumScan.readsAs t2 x2)
    (r3 : NumScan.readsAs t3 x3) (r4 : NumScan.readsAs t4 x4) :
    opShr ⟨c0 :: (t1 ++ c1 :: (t2 ++ c2 :: (t3 ++ c3 :: (t4 ++ c4 :: rest)))), false⟩ value
        = (⟨rest, false⟩, ⟨x1, x2, x3, x4⟩) ∧
      (∀ (t : List Char) (x : F64) (c : Char), NumScan.readsAs t x →
        NumScan.continuesNumber c = false → NumScan.endsAt t c) := by
  refine ⟨?_, NumScan.endsAt_of_not_continuesNumber⟩
  simp only [opShr, Istream.getChar_cons _ _ h0, Istream.getDouble_token _ _ _ _ _ r1 h1.2,
    Istream.getChar_cons _ _ h1.1, Istream.getDouble_token _ _ _ _ _ r2 h2.2,
    Istream.getChar_cons _ _ h2.1, Istream.getDouble_token _ _ _ _ _ r3 h3.2,
    Istream.getChar_cons _ _ h3.1, Istream.getDouble_token _ _ _ _ _ r4 h4.2,
    Istream.getChar_cons _ _ h4.1]

/-- Witness for C7 (amended): the text `a0.5+-2x3e1.4-`, with a letter, signs and
a decimal point in the skipped positions. -/
theorem opShr_lenient_witness :
    opShr ⟨'a' :: (['0', '.', '5'] ++ '+' :: (['-', '2'] ++ 'x' :: (['3', 'e', '1'] ++ '.' ::
        (['4'] ++ '-' :: [])))), false⟩ ⟨F64.zero, F64.zero, F64.zero, F64.one⟩
      = (⟨[], false⟩, ⟨⟨false, 1022, 0⟩, ⟨true, 1024, 0⟩, ⟨false, 1027, 3940649673949184⟩,
          ⟨false, 1025, 0⟩⟩) :=
  (opShr_lenient 'a' '+' 'x' '.' '-' ['0', '.', '5'] ['-', '2'] ['3', 'e', '1'] ['4']
    ⟨false, 1022, 0⟩ ⟨true, 1024, 0⟩ ⟨false, 1027, 3940649673949184⟩ ⟨false, 1025, 0⟩ []
    ⟨F64.zero, F64.zero, F64.zero, F64.one⟩
    (by decide) (by decide) (by decide) (by decide) (by decide)
    (by decide!) (by decide!) (by decide!) (by decide!)).1

end Oklab

/-! ## Number rendering lemmas -/

namespace NumPut

theorem decSearch_spec (n : Nat) : ∀ (i j : Nat),
    10 ^ j * 2 ^ 1074 ≤ n * 10 ^ 324 → n * 10 ^ 324 < 10 ^ (j + 2 ^ i) * 2 ^ 1074 →
    10 ^ (decSearch n i j) * 2 ^ 1074 ≤ n * 10 ^ 324 ∧
      n * 10 ^ 324 < 10 ^ (decSearch n i j + 1) * 2 ^ 1074 := by
  intro i
  induction i with
  | zero =>
    intro j h1 h2
    rw [decSearch]
    rw [pow_zero] at h2
    exact ⟨h1, h2⟩
  | succ i ih =>
    intro j h1 h2
    rw [decSearch]
    split_ifs with h
    · apply ih _ h
      have : j + 2 ^ i + 2 ^ i = j + 2 ^ (i + 1) := by ring
      rwa [this]
    · exact ih j h1 (not_le.mp h)

theorem magUnits_lt (x : F64) (h : x.isFinite = true) : x.magUnits < 2 ^ 2099 := by
  have hfin : x.expo.val ≠ 2047 := by simpa [F64.isFinite] using h
  have he := x.expo.isLt
  by_cases h0 : x.expo.val = 0
  · have hm : x.mant.val < 2 ^ 52 := x.mant.isLt
    have : x.magUnits = x.mant.val := by simp [F64.magUnits, h0]
    rw [this]
    exact lt_of_lt_of_le hm (Nat.pow_le_pow_right (by norm_num) (by norm_num))
  · obtain ⟨_, hb⟩ := F64.magUnits_bounds x h0
    exact lt_of_lt_of_le hb (Nat.pow_le_pow_right (by norm_num) (by omega))

theorem magUnits_pos (x : F64) (h : x.isZero = false) : 0 < x.magUnits := by
  rcases Nat.eq_zero_or_pos x.magUnits with h0 | h0
  · rw [F64.magUnits_eq_zero x h0] at h; exact absurd h (by simp)
  · exact h0

/-- Bounds on the decimal exponent index found for a finite non-zero value. -/
theorem decSearch_bounds (n : Nat) (h0 : 0 < n) (h1 : n < 2 ^ 2099) :
    10 ^ (decSearch n 10 0) * 2 ^ 1074 ≤ n * 10 ^ 324 ∧
      n * 10 ^ 324 < 10 ^ (decSearch n 10 0 + 1) * 2 ^ 1074 ∧ decSearch n 10 0 ≤ 632 := by
  have hA : 10 ^ 0 * 2 ^ 1074 ≤ n * 10 ^ 324 := by
    have : (2 : Nat) ^ 1074 ≤ 10 ^ 324 := by decide!
    calc 10 ^ 0 * 2 ^ 1074 = 2 ^ 1074 := by ring
      _ ≤ 10 ^ 324 := this
      _ ≤ n * 10 ^ 324 := Nat.le_mul_of_pos_left _ h0
  have hB : n * 10 ^ 324 < 10 ^ (0 + 2 ^ 10) * 2 ^ 1074 := by
    have : (2 : Nat) ^ 2099 * 10 ^ 324 ≤ 10 ^ (0 + 2 ^ 10) * 2 ^ 1074 := by decide!
    exact lt_of_lt_of_le (Nat.mul_lt_mul_of_pos_right h1 (by positivity)) this
  obtain ⟨s1, s2⟩ := decSearch_spec n 10 0 hA hB
  refine ⟨s1, s2, ?_⟩
  by_contra hcon
  have hj : 633 ≤ decSearch n 10 0 := by omega
  have h3 : 10 ^ 633 * 2 ^ 1074 ≤ n * 10 ^ 324 :=
    le_trans (Nat.mul_le_mul_right _ (Nat.pow_le_pow_right (by norm_num) hj)) s1
  have h4 : n * 10 ^ 324 < 2 ^ 2099 * 10 ^ 324 := Nat.mul_lt_mul_of_pos_right h1 (by positivity)
  have h5 : (2 : Nat) ^ 2099 * 10 ^ 324 ≤ 10 ^ 633 * 2 ^ 1074 := by decide!
  omega

end NumPut

namespace F64

theorem roundHalfEven_le_succ (t d : Nat) : roundHalfEven t d ≤ t / d + 1 := by
  unfold roundHalfEven
  simp only
  split_ifs <;> omega

theorem roundHalfEven_ge (t d : Nat) : t / d ≤ roundHalfEven t d := by
  unfold roundHalfEven
  simp only
  split_ifs <;> omega

theorem roundHalfEven_le (t d k : Nat) (h : 2 * t < (2 * k + 1) * d) :
    roundHalfEven t d ≤ k := by
  have hd : 0 < d := by
    rcases Nat.eq_zero_or_pos d with h0 | h0
    · rw [h0] at h; simp at h
    · exact h0
  have hdm := Nat.div_add_mod t d
  have hml := Nat.mod_lt t hd
  have e1 : (2 * k + 1) * d = 2 * (d * k) + d := by ring
  rw [e1] at h
  have hq : t / d ≤ k := by
    by_contra hc
    have h1 : k + 1 ≤ t / d := by omega
    have h2 : d * (k + 1) ≤ d * (t / d) := Nat.mul_le_mul_left d h1
    have e2 : d * (k + 1) = d * k + d := by ring
    rw [e2] at h2
    omega
  unfold roundHalfEven
  simp only
  rcases Nat.lt_or_ge (t / d) k with hlt | hge
  · split_ifs <;> omega
  · have hqk : t / d = k := le_antisymm hq hge
    have h3 : 2 * (t % d) < d := by
      rw [hqk] at hdm
      omega
    rw [if_pos h3]; exact hq

theorem roundMag_isFinite (s : Bool) (t d : Nat) (hd : 0 < d)
    (h : t < (2 ^ 54 - 1) * 2 ^ 2044 * d) : (roundMag s t d).isFinite = true := by
  have hu : t / d < (2 ^ 54 - 1) * 2 ^ 2044 := (Nat.div_lt_iff_lt_mul hd).2 h
  have hT : (2 ^ 54 - 1) * 2 ^ 2044 < 2 ^ 2098 := by decide!
  have hu2 : t / d < 2 ^ (52 + 0 + 2 ^ 12) :=
    lt_trans (lt_trans hu hT) (Nat.pow_lt_pow_right (by norm_num) (by norm_num))
  obtain ⟨ha, hb⟩ := shiftSearch_spec (t / d) 12 0 (Or.inl rfl) hu2
  unfold roundMag
  simp only
  have hk : shiftOf (t / d) = shiftSearch (t / d) 12 0 := rfl
  rw [hk]
  generalize shiftSearch (t / d) 12 0 = k at ha hb
  have hk2 : k ≤ 2045 := by
    by_contra hc
    rcases ha with ha | ha
    · omega
    · have : 2 ^ 2098 ≤ 2 ^ (52 + k) := Nat.pow_le_pow_right (by norm_num) (by omega)
      omega
  have hpos : 0 < d * 2 ^ k := by positivity
  have hfl : t / (d * 2 ^ k) < 2 ^ 53 := by
    rw [Nat.div_lt_iff_lt_mul hpos]
    have h1 : t < 2 ^ (53 + k) * d := (Nat.div_lt_iff_lt_mul hd).1 hb
    calc t < 2 ^ (53 + k) * d := h1
      _ = 2 ^ 53 * (d * 2 ^ k) := by rw [pow_add]; ring
  have hm1 := roundHalfEven_le_succ t (d * 2 ^ k)
  have hkey : k * 4503599627370496 + roundHalfEven t (d * 2 ^ k) < 2047 * 4503599627370496 := by
    rcases Nat.lt_or_ge k 2045 with hlt | hge
    · have : k ≤ 2044 := by omega
      have e53 : (2 : Nat) ^ 53 = 9007199254740992 := by norm_num
      omega
    · have hk3 : k = 2045 := by omega
      subst hk3
      have h2 : 2 * t < (2 * (2 ^ 53 - 1) + 1) * (d * 2 ^ 2045) := by
        have e : (2 * (2 ^ 53 - 1) + 1) * (d * 2 ^ 2045) = 2 * ((2 ^ 54 - 1) * 2 ^ 2044 * d) := by
          have e1 : (2 : Nat) ^ 2045 = 2 * 2 ^ 2044 := by rw [← pow_succ']
          have e2 : 2 * ((2 : Nat) ^ 53 - 1) + 1 = 2 ^ 54 - 1 := by norm_num
          rw [e1, e2]; ring
        rw [e]; omega
      have := roundHalfEven_le t (d * 2 ^ 2045) (2 ^ 53 - 1) h2
      have e53 : (2 : Nat) ^ 53 - 1 = 9007199254740991 := by norm_num
      omega
  unfold ofMagKey
  rw [dif_pos hkey]
  simp only [isFinite, bne_iff_ne, ne_eq]
  omega

end F64

namespace NumPut

theorem magUnits_le_max (x : F64) (h : x.isFinite = true) :
    x.magUnits ≤ (2 ^ 53 - 1) * 2 ^ 2045 := by
  have hfin : x.expo.val ≠ 2047 := by simpa [F64.isFinite] using h
  have he := x.expo.isLt
  have hm : x.mant.val < 4503599627370496 := x.mant.isLt
  unfold F64.magUnits
  split_ifs with h0
  · calc x.mant.val ≤ (2 ^ 53 - 1) * 1 := by norm_num; omega
      _ ≤ (2 ^ 53 - 1) * 2 ^ 2045 := Nat.mul_le_mul_left _ (Nat.one_le_two_pow)
  · apply Nat.mul_le_mul
    · norm_num; omega
    · exact Nat.pow_le_pow_right (by norm_num) (by omega)

/-- The six-digit significand and decimal exponent of a finite non-zero value. -/
theorem sixDigits_spec (n : Nat) (h0 : 0 < n) (h1 : n ≤ (2 ^ 53 - 1) * 2 ^ 2045) :
    100000 ≤ (sixDigits n).1 ∧ (sixDigits n).1 ≤ 999999 ∧
    -324 ≤ (sixDigits n).2 ∧ (sixDigits n).2 ≤ 308 ∧
    ((sixDigits n).2 = 308 → (sixDigits n).1 ≤ 179769) := by
  have hlt : n < 2 ^ 2099 := lt_of_le_of_lt h1 (by decide!)
  obtain ⟨s1, s2, s3⟩ := decSearch_bounds n h0 hlt
  generalize hj : decSearch n 10 0 = j at s1 s2 s3
  have hd : 0 < 2 ^ 1074 * 10 ^ j := by positivity
  have hq1 : 100000 ≤ n * 10 ^ 329 / (2 ^ 1074 * 10 ^ j) := by
    rw [Nat.le_div_iff_mul_le hd]
    calc 100000 * (2 ^ 1074 * 10 ^ j) = (10 ^ j * 2 ^ 1074) * 100000 := by ring
      _ ≤ (n * 10 ^ 324) * 100000 := Nat.mul_le_mul_right _ s1
      _ = n * 10 ^ 329 := by ring
  have hq2 : n * 10 ^ 329 / (2 ^ 1074 * 10 ^ j) < 1000000 := by
    rw [Nat.div_lt_iff_lt_mul hd]
    calc n * 10 ^ 329 = (n * 10 ^ 324) * 100000 := by ring
      _ < (10 ^ (j + 1) * 2 ^ 1074) * 100000 := Nat.mul_lt_mul_of_pos_right s2 (by norm_num)
      _ = 1000000 * (2 ^ 1074 * 10 ^ j) := by rw [pow_succ]; ring
  have hm1 := F64.roundHalfEven_ge (n * 10 ^ 329) (2 ^ 1074 * 10 ^ j)
  have hm2 := F64.roundHalfEven_le_succ (n * 10 ^ 329) (2 ^ 1074 * 10 ^ j)
  have htop : j = 632 → F64.roundHalfEven (n * 10 ^ 329) (2 ^ 1074 * 10 ^ j) ≤ 179769 := by
    intro hj632
    subst hj632
    apply F64.roundHalfEven_le
    have hc : 2 * ((2 ^ 53 - 1) * 2 ^ 2045 * 10 ^ 329)
        < (2 * 179769 + 1) * (2 ^ 1074 * 10 ^ 632) := by decide!
    calc 2 * (n * 10 ^ 329) ≤ 2 * ((2 ^ 53 - 1) * 2 ^ 2045 * 10 ^ 329) :=
          Nat.mul_le_mul_left _ (Nat.mul_le_mul_right _ h1)
      _ < _ := hc
  unfold sixDigits
  simp only [hj]
  generalize F64.roundHalfEven (n * 10 ^ 329) (2 ^ 1074 * 10 ^ j) = m at hm1 hm2 htop
  generalize n * 10 ^ 329 / (2 ^ 1074 * 10 ^ j) = q at hq1 hq2 hm1 hm2
  clear s1 s2 hd h1 hlt
  split_ifs with hm
  · simp only
    refine ⟨le_refl _, by norm_num, by omega, ?_, fun _ => by norm_num⟩
    by_contra hc
    have : j = 632 := by omega
    have := htop this
    omega
  · simp only
    refine ⟨by omega, by omega, by omega, by omega, ?_⟩
    intro hx
    exact htop (by omega)

end NumPut

namespace NumScan

theorem roundDec_isFinite (s : Bool) (m : Nat) (x : Int) (h1 : m ≤ 999999) (h2 : x ≤ 308)
    (h3 : x = 308 → m ≤ 179769) : (roundDec s m (x - 5)).isFinite = true := by
  cases hE : x - 5 with
  | ofNat k =>
    simp only [roundDec]
    rw [Int.ofNat_eq_coe] at hE
    apply F64.roundMag_isFinite _ _ _ (by norm_num)
    rw [Nat.mul_one]
    have hk : k ≤ 303 := by omega
    rcases Nat.lt_or_ge k 303 with hlt | hge
    · have hp : 10 ^ k ≤ 10 ^ 302 := Nat.pow_le_pow_right (by norm_num) (by omega)
      have hc : 999999 * 10 ^ 302 * 2 ^ 1074 < (2 ^ 54 - 1) * 2 ^ 2044 := by decide!
      calc m * 10 ^ k * 2 ^ 1074 ≤ 999999 * 10 ^ 302 * 2 ^ 1074 :=
            Nat.mul_le_mul_right _ (Nat.mul_le_mul h1 hp)
        _ < _ := hc
    · have hk3 : k = 303 := by omega
      subst hk3
      have hm : m ≤ 179769 := h3 (by omega)
      have hc : 179769 * 10 ^ 303 * 2 ^ 1074 < (2 ^ 54 - 1) * 2 ^ 2044 := by decide!
      calc m * 10 ^ 303 * 2 ^ 1074 ≤ 179769 * 10 ^ 303 * 2 ^ 1074 :=
            Nat.mul_le_mul_right _ (Nat.mul_le_mul_right _ hm)
        _ < _ := hc
  | negSucc k =>
    simp only [roundDec]
    apply F64.roundMag_isFinite _ _ _ (by positivity)
    have hc : 999999 * 2 ^ 1074 < (2 ^ 54 - 1) * 2 ^ 2044 := by decide!
    calc m * 2 ^ 1074 ≤ 999999 * 2 ^ 1074 := Nat.mul_le_mul_right _ h1
      _ < (2 ^ 54 - 1) * 2 ^ 2044 * 1 := by rw [Nat.mul_one]; exact hc
      _ ≤ (2 ^ 54 - 1) * 2 ^ 2044 * 10 ^ (k + 1) :=
          Nat.mul_le_mul_left _ (Nat.one_le_pow _ _ (by norm_num))

theorem scan_of_run :
    ∀ (t : List Char) (st st' : NumScan), run st t = some st' → scan st t = (st', []) := by
  intro t
  induction t with
  | nil => intro st st' h; simp [run] at h; simp [scan, h]
  | cons d t ih =>
    intro st st' h
    simp only [run, List.foldlM_cons, Option.bind_eq_bind] at h
    cases hs : st.step d with
    | none => simp [hs] at h
    | some st1 =>
      simp only [hs, Option.some_bind] at h
      simp only [scan, hs]
      exact ih st1 st' h

theorem run_append (st : NumScan) (s t : List Char) :
    run st (s ++ t) = (run st s).bind (fun st' => run st' t) := by
  simp [run, List.foldlM_append]

theorem digitChar_props (d : Nat) (h : d < 10) :
    (NumPut.digitChar d).isDigit = true ∧ (NumPut.digitChar d).toNat - 48 = d := by
  interval_cases d <;> decide

theorem run_digits_inInt (neg : Bool) : ∀ (ds : List Nat) (a : Nat), (∀ d ∈ ds, d < 10) →
    run (inInt neg a) (ds.map NumPut.digitChar) = some (inInt neg (pushDigits a ds)) := by
  intro ds
  induction ds with
  | nil => intro a _; rfl
  | cons d ds ih =>
    intro a h
    obtain ⟨p1, p2⟩ := digitChar_props d (h d (by simp))
    have hs : (inInt neg a).step (NumPut.digitChar d) = some (inInt neg (a * 10 + d)) := by
      simp [step, p1, p2, inInt]
    simp only [List.map_cons, run, List.foldlM_cons, hs, Option.bind_eq_bind, Option.some_bind]
    exact ih (a * 10 + d) (fun e he => h e (by simp [he]))

theorem run_digits_inFrac (neg : Bool) : ∀ (ds : List Nat) (a f : Nat), (∀ d ∈ ds, d < 10) →
    run (inFrac neg a f) (ds.map NumPut.digitChar)
      = some (inFrac neg (pushDigits a ds) (f + ds.length)) := by
  intro ds
  induction ds with
  | nil => intro a f _; rfl
  | cons d ds ih =>
    intro a f h
    obtain ⟨p1, p2⟩ := digitChar_props d (h d (by simp))
    have hs : (inFrac neg a f).step (NumPut.digitChar d)
        = some (inFrac neg (a * 10 + d) (f + 1)) := by
      simp [step, p1, p2, inFrac]
    simp only [List.map_cons, run, List.foldlM_cons, hs, Option.bind_eq_bind, Option.some_bind]
    have := ih (a * 10 + d) (f + 1) (fun e he => h e (by simp [he]))
    simp only [run] at this
    rw [this]
    simp [pushDigits, Nat.add_assoc, Nat.add_comm 1]

theorem run_digits_inExp (dec neg expNeg : Bool) (a f : Nat) :
    ∀ (ds : List Nat) (ev ed : Nat), (∀ d ∈ ds, d < 10) →
    run (inExp dec neg a f expNeg ev ed) (ds.map NumPut.digitChar)
      = some (inExp dec neg a f expNeg (pushDigits ev ds) (ed + ds.length)) := by
  intro ds
  induction ds with
  | nil => intro ev ed _; rfl
  | cons d ds ih =>
    intro ev ed h
    obtain ⟨p1, p2⟩ := digitChar_props d (h d (by simp))
    have hs : (inExp dec neg a f expNeg ev ed).step (NumPut.digitChar d)
        = some (inExp dec neg a f expNeg (ev * 10 + d) (ed + 1)) := by
      simp [step, p1, p2, inExp]
    simp only [List.map_cons, run, List.foldlM_cons, hs, Option.bind_eq_bind, Option.some_bind]
    have := ih (ev * 10 + d) (ed + 1) (fun e he => h e (by simp [he]))
    simp only [run] at this
    rw [this]
    simp [pushDigits, Nat.add_assoc, Nat.add_comm 1]

theorem roundDec_eq (s : Bool) (a p q : Nat) :
    roundDec s a ((p : Int) - (q : Int)) = F64.roundMag s (a * 10 ^ p * 2 ^ 1074) (10 ^ q) := by
  cases hE : (p : Int) - (q : Int) with
  | ofNat k =>
    rw [Int.ofNat_eq_coe] at hE
    have hp : p = k + q := by omega
    simp only [roundDec]
    subst hp
    generalize (2 : Nat) ^ 1074 = A
    have h := F64.roundMag_scale s (a * 10 ^ k * A) 1 (10 ^ q) (by positivity)
    rw [Nat.one_mul] at h
    have e1 : a * 10 ^ (k + q) * A = a * 10 ^ k * A * 10 ^ q := by rw [pow_add]; ring
    rw [e1, h]
  | negSucc k =>
    have hq : q = p + (k + 1) := by
      have := Int.negSucc_eq k
      omega
    simp only [roundDec]
    subst hq
    generalize (2 : Nat) ^ 1074 = A
    have h := F64.roundMag_scale s (a * A) (10 ^ (k + 1)) (10 ^ p) (by positivity)
    have e1 : a * 10 ^ p * A = a * A * 10 ^ p := by ring
    have e2 : 10 ^ (p + (k + 1)) = 10 ^ (k + 1) * 10 ^ p := by rw [pow_add]; ring
    rw [e1, e2, h]

theorem roundDec_shift (s : Bool) (a z : Nat) (e : Int) :
    roundDec s (a * 10 ^ z) e = roundDec s a (e + z) := by
  have h1 : e = ((e.toNat : Nat) : Int) - (((-e).toNat : Nat) : Int) := by omega
  have h2 : e + z = (((e.toNat + z : Nat)) : Int) - (((-e).toNat : Nat) : Int) := by
    push_cast; omega
  rw [h2, roundDec_eq]
  conv_lhs => rw [h1]
  rw [roundDec_eq]
  generalize (2 : Nat) ^ 1074 = A
  have e1 : a * 10 ^ z * 10 ^ e.toNat * A = a * 10 ^ (e.toNat + z) * A := by
    rw [pow_add]; ring
  rw [e1]

theorem pushDigits_append (a : Nat) (l1 l2 : List Nat) :
    pushDigits a (l1 ++ l2) = pushDigits (pushDigits a l1) l2 := by
  simp [pushDigits, List.foldl_append]

theorem pushDigits_zeros (a z : Nat) : pushDigits a (List.replicate z 0) = a * 10 ^ z := by
  induction z generalizing a with
  | zero => simp [pushDigits]
  | succ z ih =>
    simp only [List.replicate_succ, pushDigits, List.foldl_cons, Nat.add_zero]
    have := ih (a * 10)
    simp only [pushDigits] at this
    rw [this, pow_succ]; ring

theorem pushDigits_leading_zeros (k : Nat) (l : List Nat) :
    pushDigits 0 (List.replicate k 0 ++ l) = pushDigits 0 l := by
  rw [pushDigits_append, pushDigits_zeros]; simp

end NumScan

namespace NumPut

theorem stripZeros_spec (ds : List Nat) :
    ∃ z, ds = stripZeros ds ++ List.replicate z 0 := by
  refine ⟨(ds.reverse.takeWhile (fun d => d == 0)).length, ?_⟩
  have h1 := List.takeWhile_append_dropWhile (fun d => d == 0) ds.reverse
  have h2 : ds.reverse.takeWhile (fun d => d == 0)
      = List.replicate (ds.reverse.takeWhile (fun d => d == 0)).length 0 := by
    rw [List.eq_replicate_iff]
    refine ⟨rfl, fun b hb => ?_⟩
    have := List.mem_takeWhile_imp hb
    simpa using this
  have h3 : ds = (ds.reverse.dropWhile (fun d => d == 0)).reverse
      ++ (ds.reverse.takeWhile (fun d => d == 0)).reverse := by
    rw [← List.reverse_append, h1, List.reverse_reverse]
  rw [h2, List.reverse_replicate] at h3
  exact h3

theorem stripZeros_mem (ds : List Nat) (d : Nat) (h : d ∈ stripZeros ds) : d ∈ ds := by
  unfold stripZeros at h
  rw [List.mem_reverse] at h
  have := (List.dropWhile_sublist _).subset h
  simpa using this

theorem digitsOf_lt (m d : Nat) (h : d ∈ digitsOf m) : d < 10 := by
  simp only [digitsOf, List.mem_cons, List.mem_singleton, List.not_mem_nil, or_false] at h
  omega

theorem pushDigits_digitsOf (m : Nat) (h : m < 1000000) :
    NumScan.pushDigits 0 (digitsOf m) = m := by
  simp only [NumScan.pushDigits, digitsOf, List.foldl_cons, List.foldl_nil]
  omega

end NumPut

namespace NumScan

theorem step_start_digit (b neg : Bool) (d : Nat) (h : d < 10) :
    (start b neg).step (NumPut.digitChar d) = some (inInt neg d) := by
  obtain ⟨p1, p2⟩ := digitChar_props d h
  simp [step, p1, p2, start, inInt]

theorem run_cons (st : NumScan) (c : Char) (cs : List Char) :
    run st (c :: cs) = (st.step c).bind (fun st' => run st' cs) := by
  simp [run]

theorem run_fraction (neg : Bool) (a : Nat) (F : List Nat) (hF : ∀ d ∈ F, d < 10) :
    run (inInt neg a) (NumPut.fraction F)
      = some (afterMant (!F.isEmpty) neg (pushDigits a F) F.length) := by
  cases F with
  | nil => rfl
  | cons d F =>
    have hs : (inInt neg a).step '.' = some (inFrac neg a 0) := by
      have : ('.' : Char).isDigit = false := by decide
      simp [step, this, inInt, inFrac]
    have hr := run_digits_inFrac neg (d :: F) a 0 hF
    simp only [NumPut.fraction, List.isEmpty_cons, Bool.false_eq_true, if_false, run_cons, hs,
      Option.some_bind, hr, Nat.zero_add, Bool.not_false]
    rfl

theorem run_exponent (dec neg : Bool) (a f : Nat) (x : Int) (hx : x.natAbs < 1000) :
    ∃ n, 0 < n ∧ run (afterMant dec neg a f) (NumPut.exponent x)
      = some (inExp dec neg a f (decide (x < 0)) x.natAbs n) := by
  have he : (afterMant dec neg a f).step 'e'
      = some ⟨false, true, true, dec, true, neg, a, f, false, 0, 0⟩ := by
    have : ('e' : Char).isDigit = false := by decide
    simp [step, this, afterMant]
  have hsign : ∀ c : Char, c = '+' ∨ c = '-' →
      (⟨false, true, true, dec, true, neg, a, f, false, 0, 0⟩ : NumScan).step c
        = some (inExp dec neg a f (decide (c = '-')) 0 0) := by
    intro c hc
    rcases hc with rfl | rfl
    · have : ('+' : Char).isDigit = false := by decide
      simp [step, this, inExp]
    · have : ('-' : Char).isDigit = false := by decide
      simp [step, this, inExp]
  have hsg : (decide ((if x < 0 then '-' else '+') = '-')) = decide (x < 0) := by
    by_cases h : x < 0 <;> simp [h]
  unfold NumPut.exponent
  simp only [run_cons, he, Option.some_bind]
  rw [hsign _ (by by_cases h : x < 0 <;> simp [h]), Option.some_bind, hsg]
  by_cases h100 : x.natAbs < 100
  · refine ⟨2, by norm_num, ?_⟩
    simp only [h100, if_true]
    have := run_digits_inExp dec neg (decide (x < 0)) a f [x.natAbs / 10, x.natAbs % 10] 0 0
      (by intro d hd; simp at hd; omega)
    simp only [List.map_cons, List.map_nil] at this
    rw [this]
    simp only [pushDigits, List.foldl_cons, List.foldl_nil, List.length_cons, List.length_nil]
    congr 2
    omega
  · refine ⟨3, by norm_num, ?_⟩
    simp only [h100, if_false]
    have := run_digits_inExp dec neg (decide (x < 0)) a f
      [x.natAbs / 100, x.natAbs / 10 % 10, x.natAbs % 10] 0 0
      (by intro d hd; simp at hd; omega)
    simp only [List.map_cons, List.map_nil] at this
    rw [this]
    simp only [pushDigits, List.foldl_cons, List.foldl_nil, List.length_cons, List.length_nil]
    congr 2
    omega

theorem convert_afterMant (dec neg : Bool) (a f : Nat) :
    (afterMant dec neg a f).convert = some (roundDec neg a (-(f : Int))) := by
  simp [convert, afterMant, decExp]

theorem convert_inExp (dec neg en : Bool) (a f ev n : Nat) (hn : 0 < n) :
    (inExp dec neg a f en ev n).convert
      = some (roundDec neg a ((if en then -(ev : Int) else (ev : Int)) - (f : Int))) := by
  have : n ≠ 0 := by omega
  simp [convert, inExp, decExp, this]

/-- Scientific style: one digit, the stripped fraction, the exponent. -/
theorem run_scientific (b neg : Bool) (d0 : Nat) (tl : List Nat) (x : Int)
    (h0 : d0 < 10) (htl : ∀ d ∈ tl, d < 10) (hx : x.natAbs < 1000) :
    ∃ st', run (start b neg)
        (NumPut.digitChar d0 :: (NumPut.fraction (NumPut.stripZeros tl) ++ NumPut.exponent x))
          = some st' ∧
      st'.convert = some (roundDec neg (pushDigits 0 (d0 :: tl)) (x - (tl.length : Int))) := by
  obtain ⟨z, hz⟩ := NumPut.stripZeros_spec tl
  generalize NumPut.stripZeros tl = F at hz
  have hF : ∀ d ∈ F, d < 10 := fun d hd => htl d (by rw [hz]; simp [hd])
  obtain ⟨n, hn, hrun⟩ := run_exponent (!F.isEmpty) neg (pushDigits d0 F) F.length x hx
  refine ⟨inExp (!F.isEmpty) neg (pushDigits d0 F) F.length (decide (x < 0)) x.natAbs n, ?_, ?_⟩
  · rw [run_cons, step_start_digit b neg d0 h0, Option.some_bind, run_append,
      run_fraction neg d0 F hF, Option.some_bind, hrun]
  · rw [convert_inExp _ _ _ _ _ _ _ hn]
    have hv : pushDigits 0 (d0 :: tl) = pushDigits d0 F * 10 ^ z := by
      have e : pushDigits 0 (d0 :: tl) = pushDigits d0 tl := by simp [pushDigits]
      rw [e, hz, pushDigits_append, pushDigits_zeros]
    have hl : tl.length = F.length + z := by rw [hz]; simp
    rw [hv, roundDec_shift, hl]
    congr 2
    by_cases hneg : x < 0
    · have ha : (x.natAbs : Int) = -x := Int.ofNat_natAbs_of_nonpos (le_of_lt hneg)
      simp only [hneg, decide_True, if_true, ha]; push_cast; omega
    · have ha : (x.natAbs : Int) = x := Int.natAbs_of_nonneg (not_lt.mp hneg)
      simp only [hneg, decide_False, Bool.false_eq_true, if_false, ha]; push_cast; omega

/-- Fixed style with an integer part of `n ≥ 1` digits. -/
theorem run_fixed_int (b neg : Bool) (ds : List Nat) (n : Nat) (hds : ∀ d ∈ ds, d < 10)
    (hn1 : 1 ≤ n) (hn2 : n ≤ ds.length) :
    ∃ st', run (start b neg)
        ((ds.take n).map NumPut.digitChar ++ NumPut.fraction (NumPut.stripZeros (ds.drop n)))
          = some st' ∧
      st'.convert = some (roundDec neg (pushDigits 0 ds) ((n : Int) - (ds.length : Int))) := by
  obtain ⟨z, hz⟩ := NumPut.stripZeros_spec (ds.drop n)
  generalize NumPut.stripZeros (ds.drop n) = F at hz
  have hF : ∀ d ∈ F, d < 10 := fun d hd =>
    hds d (List.mem_of_mem_drop (by rw [hz]; simp [hd]))
  cases ds with
  | nil => simp at hn2; omega
  | cons d0 tl =>
    obtain ⟨k, rfl⟩ : ∃ k, n = k + 1 := ⟨n - 1, by omega⟩
    have hI : ∀ d ∈ tl.take k, d < 10 := fun d hd =>
      hds d (List.mem_cons_of_mem _ (List.mem_of_mem_take hd))
    simp only [List.take_succ_cons, List.map_cons, List.drop_succ_cons] at hz ⊢
    refine ⟨afterMant (!F.isEmpty) neg (pushDigits (pushDigits d0 (tl.take k)) F) F.length,
      ?_, ?_⟩
    · rw [List.cons_append, run_cons, step_start_digit b neg d0 (hds d0 (by simp)),
        Option.some_bind, run_append, run_digits_inInt neg _ d0 hI, Option.some_bind,
        run_fraction neg _ F hF]
    · rw [convert_afterMant]
      have hsplit : d0 :: tl = (d0 :: tl.take k) ++ (F ++ List.replicate z 0) := by
        rw [← hz, List.cons_append, List.take_append_drop]
      have hv : pushDigits 0 (d0 :: tl) = pushDigits (pushDigits d0 (tl.take k)) F * 10 ^ z := by
        rw [hsplit, pushDigits_append, pushDigits_append, pushDigits_zeros]
        simp [pushDigits]
      have hl : (d0 :: tl).length = (k + 1) + (F.length + z) := by
        have h1 : (tl.drop k).length = F.length + z := by rw [hz]; simp
        simp only [List.length_drop] at h1
        simp only [List.length_cons] at hn2 ⊢
        omega
      rw [hv, roundDec_shift, hl]
      congr 2
      push_cast; omega

/-- Fixed style below one: `0.`, `k` zeros, the stripped digits. -/
theorem run_fixed_frac (b neg : Bool) (ds : List Nat) (k : Nat) (hds : ∀ d ∈ ds, d < 10) :
    ∃ st', run (start b neg)
        ('0' :: NumPut.fraction (List.replicate k 0 ++ NumPut.stripZeros ds)) = some st' ∧
      st'.convert = some (roundDec neg (pushDigits 0 ds) (-((k + ds.length : Nat) : Int))) := by
  obtain ⟨z, hz⟩ := NumPut.stripZeros_spec ds
  generalize NumPut.stripZeros ds = F at hz
  have hF : ∀ d ∈ F, d < 10 := fun d hd => hds d (by rw [hz]; simp [hd])
  have hG : ∀ d ∈ List.replicate k 0 ++ F, d < 10 := by
    intro d hd
    rcases List.mem_append.1 hd with h | h
    · rw [(List.mem_replicate.1 h).2]; norm_num
    · exact hF d h
  have h0 : ('0' : Char) = NumPut.digitChar 0 := by decide
  refine ⟨afterMant (!(List.replicate k 0 ++ F).isEmpty) neg
    (pushDigits 0 (List.replicate k 0 ++ F)) (List.replicate k 0 ++ F).length, ?_, ?_⟩
  · rw [run_cons, h0, step_start_digit b neg 0 (by norm_num), Option.some_bind,
      run_fraction neg 0 _ hG]
  · rw [convert_afterMant, pushDigits_leading_zeros]
    have hv : pushDigits 0 ds = pushDigits 0 F * 10 ^ z := by
      rw [hz, pushDigits_append, pushDigits_zeros]
    have hl : ds.length = F.length + z := by rw [hz]; simp
    rw [hv, roundDec_shift, hl]
    congr 2
    simp only [List.length_append, List.length_replicate]
    push_cast; omega

/-- The `%g` text of a six-digit decimal is accepted in full and converts to the
`double` nearest to that decimal. -/
theorem run_general (b neg : Bool) (m : Nat) (x : Int) (hm : m ≤ 999999)
    (hx1 : -324 ≤ x) (hx2 : x ≤ 308) :
    ∃ st', run (start b neg) (NumPut.general m x) = some st' ∧
      st'.convert = some (roundDec neg m (x - 5)) := by
  have hds : ∀ d ∈ NumPut.digitsOf m, d < 10 := fun d hd => NumPut.digitsOf_lt m d hd
  have hval := NumPut.pushDigits_digitsOf m (by omega)
  have hlen : (NumPut.digitsOf m).length = 6 := rfl
  unfold NumPut.general
  simp only
  split_ifs with h1 h2
  · have h := run_scientific b neg (m / 100000 % 10) (NumPut.digitsOf m).tail x (by omega)
      (fun d hd => hds d (List.mem_of_mem_tail hd)) (by omega)
    have e1 : (NumPut.digitsOf m).headD 0 = m / 100000 % 10 := rfl
    have e2 : (m / 100000 % 10) :: (NumPut.digitsOf m).tail = NumPut.digitsOf m := rfl
    have e3 : ((NumPut.digitsOf m).tail.length : Int) = 5 := rfl
    rw [e1]
    rw [e2, hval, e3] at h
    exact h
  · have h := run_fixed_int b neg (NumPut.digitsOf m) (x.toNat + 1) hds (by omega)
      (by rw [hlen]; omega)
    rw [hval, hlen] at h
    have e : ((x.toNat + 1 : Nat) : Int) - ((6 : Nat) : Int) = x - 5 := by push_cast; omega
    rw [e] at h
    exact h
  · have h := run_fixed_frac b neg (NumPut.digitsOf m) ((-x).toNat - 1) hds
    rw [hval, hlen] at h
    have e : -((((-x).toNat - 1 + 6 : Nat)) : Int) = x - 5 := by omega
    rw [e] at h
    exact h

end NumScan

namespace NumPut

/-- The text written for a finite `double` is a complete numeric token that
reads back as `readBack x`. -/
theorem readsAs_putDouble (x : F64) (hx : x.isFinite = true) :
    NumScan.readsAs (putDouble x) (readBack x) := by
  have hnan := F64.isNaN_of_isFinite x hx
  have hinf := F64.isInf_of_isFinite x hx
  have hsign : ∀ (body : List Char),
      NumScan.run NumScan.init ((if x.sign then ['-'] else []) ++ body)
        = NumScan.run (NumScan.start (!x.sign) x.sign) body := by
    intro body
    cases hs : x.sign
    · rfl
    · have : NumScan.init.step '-' = some (NumScan.start false true) := by decide
      simp only [if_true, List.cons_append, List.nil_append, NumScan.run_cons, this,
        Option.some_bind, Bool.not_true]
  have key : ∃ st', NumScan.run NumScan.init (putDouble x) = some st' ∧
      st'.convert = some (readBack x) ∧ (readBack x).isInf = false := by
    unfold putDouble readBack
    simp only [hnan, hinf, Bool.false_eq_true, if_false]
    rw [hsign]
    by_cases hz : x.isZero = true
    · simp only [hz, if_true]
      have h0 : ('0' : Char) = digitChar 0 := by decide
      refine ⟨NumScan.inInt x.sign 0, ?_, ?_, hinf⟩
      · rw [NumScan.run_cons, h0, NumScan.step_start_digit _ _ 0 (by norm_num)]
        rfl
      · have hc := NumScan.convert_afterMant false x.sign 0 0
        have e : NumScan.afterMant false x.sign 0 0 = NumScan.inInt x.sign 0 := rfl
        rw [e] at hc
        rw [hc]
        have hr : NumScan.roundDec x.sign 0 (-((0 : Nat) : Int)) = ⟨x.sign, 0, 0⟩ := by
          have := NumScan.roundDec_eq x.sign 0 0 0
          simp only [Nat.cast_zero, sub_zero, zero_mul] at this
          simp only [Nat.cast_zero, neg_zero, this, F64.roundMag_zero]
        rw [hr]
        obtain ⟨sx, ⟨ex, hex⟩, ⟨mx, hmx⟩⟩ := x
        simp only [F64.isZero, Bool.and_eq_true, beq_iff_eq] at hz
        obtain ⟨rfl, rfl⟩ := hz
        rfl
    · have hz' : x.isZero = false := by simpa using hz
      simp only [hz', Bool.false_eq_true, if_false]
      obtain ⟨s1, s2, s3, s4, s5⟩ := sixDigits_spec x.magUnits (magUnits_pos x hz')
        (magUnits_le_max x hx)
      obtain ⟨st', r1, r2⟩ := NumScan.run_general (!x.sign) x.sign (sixDigits x.magUnits).1
        (sixDigits x.magUnits).2 s2 s3 s4
      exact ⟨st', r1, r2, F64.isInf_of_isFinite _
        (NumScan.roundDec_isFinite _ _ _ s2 s4 s5)⟩
  obtain ⟨st', k1, k2, k3⟩ := key
  have hscan := NumScan.scan_of_run _ _ _ k1
  exact ⟨by rw [hscan], by rw [hscan]; exact k2, k3⟩

end NumPut

namespace F64

theorem roundHalfEven_err (t d : Nat) (hd : 0 < d) :
    2 * t ≤ 2 * (roundHalfEven t d * d) + d ∧ 2 * (roundHalfEven t d * d) ≤ 2 * t + d := by
  have hdm := Nat.div_add_mod t d
  have hml := Nat.mod_lt t hd
  unfold roundHalfEven
  simp only
  generalize t / d = q at hdm ⊢
  generalize t % d = r at hdm hml ⊢
  have e1 : (q + 1) * d = q * d + d := by ring
  have e2 : d * q = q * d := by ring
  rw [e2] at hdm
  split_ifs with h1 h2 h3
  · constructor <;> omega
  · rw [e1]; constructor <;> omega
  · constructor <;> omega
  · rw [e1]; constructor <;> omega

end F64

namespace NumPut

theorem sixDigits_rounding (n : Nat) (h0 : 0 < n) (h1 : n ≤ (2 ^ 53 - 1) * 2 ^ 2045) :
    sixDigitRounding n (sixDigits n).1 (sixDigits n).2 := by
  obtain ⟨s1, s2, _, _, _⟩ := sixDigits_spec n h0 h1
  refine ⟨s1, s2, ?_⟩
  obtain ⟨e1, e2⟩ := F64.roundHalfEven_err (n * 10 ^ 329) (2 ^ 1074 * 10 ^ (decSearch n 10 0))
    (by positivity)
  clear s1 s2 h1
  unfold sixDigits
  simp only
  generalize decSearch n 10 0 = j at e1 e2 ⊢
  generalize (2 : Nat) ^ 1074 = A at e1 e2 ⊢
  generalize n * 10 ^ 329 = B at e1 e2 ⊢
  generalize F64.roundHalfEven B (A * 10 ^ j) = m at e1 e2 ⊢
  split_ifs with hm
  · have hx : ((j : Int) + 1 - 324 + 324).toNat = j + 1 := by omega
    simp only [hx]
    subst hm
    have e3 : 100000 * (A * 10 ^ (j + 1)) = 1000000 * (A * 10 ^ j) := by rw [pow_succ]; ring
    have e4 : A * 10 ^ (j + 1) = 10 * (A * 10 ^ j) := by rw [pow_succ]; ring
    rw [e3, e4]
    generalize A * 10 ^ j = D at e1 e2 ⊢
    constructor <;> omega
  · have hx : ((j : Int) - 324 + 324).toNat = j := by omega
    simp only [hx]
    exact ⟨e1, e2⟩

end NumPut

namespace Istream

/-- Extraction of a numeric token that follows one space. -/
theorem getDouble_space_token (t : List Char) (x : F64) (c : Char) (rest : List Char)
    (old : F64) (h : NumScan.readsAs t x) (hc : NumScan.endsAt t c) :
    getDouble ⟨' ' :: (t ++ c :: rest), false⟩ old = (⟨c :: rest, false⟩, x) := by
  have h1 := getDouble_token t x c rest old h hc
  have hsp : isSpace ' ' = true := by decide
  simp only [getDouble, Bool.false_eq_true, if_false, List.dropWhile, hsp] at h1 ⊢
  exact h1

end Istream

namespace Oklab

/-- C5 (as stated, refuted): the value `(NaN, 0, 0, 1)` is written as
`(nan, 0, 0, 1)`, and reading that text back sets `failbit`; the same happens
for an infinite lightness, written `(inf, 0, 0, 1)`. -/
theorem write_read_fails_on_nan :
    opShl NumPut.putDouble [] ⟨F64.nan, F64.zero, F64.zero, F64.one⟩
      = ['(', 'n', 'a', 'n', ',', ' ', '0', ',', ' ', '0', ',', ' ', '1', ')'] ∧
    (opShr ⟨opShl NumPut.putDouble [] ⟨F64.nan, F64.zero, F64.zero, F64.one⟩, false⟩
      ⟨F64.zero, F64.zero, F64.zero, F64.one⟩).1.fail = true ∧
    opShl NumPut.putDouble [] ⟨F64.inf, F64.zero, F64.zero, F64.one⟩
      = ['(', 'i', 'n', 'f', ',', ' ', '0', ',', ' ', '0', ',', ' ', '1', ')'] ∧
    (opShr ⟨opShl NumPut.putDouble [] ⟨F64.inf, F64.zero, F64.zero, F64.one⟩, false⟩
      ⟨F64.zero, F64.zero, F64.zero, F64.one⟩).1.fail = true := by
  decide!

/-- C5 (amended): for every value whose four fields are finite, writing it with
`operator<<` on a stream in its default state and reading the text back with
`operator>>` into any `Oklab` ends with `failbit` clear and all text consumed,
and each field read is the `double` nearest to the six-significant-digit
decimal written for the field it came from (the field itself when it is a
zero); that decimal is the field's value rounded to six significant digits. -/
theorem write_read_roundtrip (v target : Oklab)
    (hl : v.l.isFinite = true) (ha : v.a.isFinite = true) (hb : v.b.isFinite = true)
    (hw : v.alpha.isFinite = true) :
    opShr ⟨opShl NumPut.putDouble [] v, false⟩ target
      = (⟨[], false⟩, ⟨NumPut.readBack v.l, NumPut.readBack v.a, NumPut.readBack v.b,
          NumPut.readBack v.alpha⟩) ∧
    (∀ x ∈ [v.l, v.a, v.b, v.alpha], x.isZero = false →
      NumPut.sixDigitRounding x.magUnits (NumPut.sixDigits x.magUnits).1
        (NumPut.sixDigits x.magUnits).2) := by
  have e : opShl NumPut.putDouble [] v
      = '(' :: (NumPut.putDouble v.l ++ ',' :: ' ' :: (NumPut.putDouble v.a ++ ',' :: ' ' ::
          (NumPut.putDouble v.b ++ ',' :: ' ' :: (NumPut.putDouble v.alpha ++ ')' :: [])))) := by
    simp [opShl, Ostream.putChar, Ostream.putDouble]
  have hcomma : NumScan.continuesNumber ',' = false := by decide
  have hparen : NumScan.continuesNumber ')' = false := by decide
  have el := NumScan.endsAt_of_not_continuesNumber _ _ _ (NumPut.readsAs_putDouble v.l hl) hcomma
  have ea := NumScan.endsAt_of_not_continuesNumber _ _ _ (NumPut.readsAs_putDouble v.a ha) hcomma
  have eb := NumScan.endsAt_of_not_continuesNumber _ _ _ (NumPut.readsAs_putDouble v.b hb) hcomma
  have ew :=
    NumScan.endsAt_of_not_continuesNumber _ _ _ (NumPut.readsAs_putDouble v.alpha hw) hparen
  have s1 : Istream.isSpace '(' = false := by decide
  have s2 : Istream.isSpace ',' = false := by decide
  have s3 : Istream.isSpace ')' = false := by decide
  constructor
  · rw [e]
    simp only [opShr, Istream.getChar_cons _ _ s1,
      Istream.getDouble_token _ _ _ _ _ (NumPut.readsAs_putDouble v.l hl) el,
      Istream.getChar_cons _ _ s2,
      Istream.getDouble_space_token _ _ _ _ _ (NumPut.readsAs_putDouble v.a ha) ea,
      Istream.getDouble_space_token _ _ _ _ _ (NumPut.readsAs_putDouble v.b hb) eb,
      Istream.getDouble_space_token _ _ _ _ _ (NumPut.readsAs_putDouble v.alpha hw) ew,
      Istream.getChar_cons _ _ s3]
  · intro x hx hz
    have hfin : x.isFinite = true := by
      simp only [List.mem_cons, List.mem_singleton, List.not_mem_nil, or_false] at hx
      rcases hx with rfl | rfl | rfl | rfl <;> assumption
    exact NumPut.sixDigits_rounding x.magUnits (NumPut.magUnits_pos x hz)
      (NumPut.magUnits_le_max x hfin)

/-- Witness for C5 (amended): `(0.5, -0.25, 0.125, 1)`, with negative `a`, is
written as `(0.5, -0.25, 0.125, 1)` and read back unchanged. -/
theorem write_read_roundtrip_witness :
    opShr ⟨opShl NumPut.putDouble [] ⟨⟨false, 1022, 0⟩, ⟨true, 1021, 0⟩, ⟨false, 1020, 0⟩,
        F64.one⟩, false⟩ ⟨F64.zero, F64.zero, F64.zero, F64.zero⟩
      = (⟨[], false⟩, ⟨NumPut.readBack ⟨false, 1022, 0⟩, NumPut.readBack ⟨true, 1021, 0⟩,
          NumPut.readBack ⟨false, 1020, 0⟩, NumPut.readBack F64.one⟩) ∧
    NumPut.readBack ⟨false, 1022, 0⟩ = ⟨false, 1022, 0⟩ ∧
    NumPut.readBack ⟨true, 1021, 0⟩ = ⟨true, 1021, 0⟩ ∧
    NumPut.readBack ⟨false, 1020, 0⟩ = ⟨false, 1020, 0⟩ ∧
    NumPut.readBack F64.one = F64.one ∧
    opShl NumPut.putDouble [] ⟨⟨false, 1022, 0⟩, ⟨true, 1021, 0⟩, ⟨false, 1020, 0⟩, F64.one⟩
      = ['(', '0', '.', '5', ',', ' ', '-', '0', '.', '2', '5', ',', ' ', '0', '.', '1', '2',
          '5', ',', ' ', '1', ')'] :=
  ⟨(write_read_roundtrip ⟨⟨false, 1022, 0⟩, ⟨true, 1021, 0⟩, ⟨false, 1020, 0⟩, F64.one⟩
      ⟨F64.zero, F64.zero, F64.zero, F64.zero⟩ (by decide) (by decide) (by decide)
      (by decide)).1,
    by decide!, by decide!, by decide!, by decide!, by decide!⟩

end Oklab

/-! ## The sRGB transfer curves: lemmas and claim -/

namespace SRGB

theorem rpow_inv24_pow12 (x : ℝ) (hx : 0 ≤ x) : (x ^ (1 / 2.4 : ℝ)) ^ 12 = x ^ 5 := by
  rw [← Real.rpow_natCast, ← Real.rpow_mul hx]
  have e : (1 / 2.4 : ℝ) * ((12 : ℕ) : ℝ) = ((5 : ℕ) : ℝ) := by norm_num
  rw [e, Real.rpow_natCast]

theorem rpow24_pow5 (u : ℝ) (hu : 0 ≤ u) : (u ^ (2.4 : ℝ)) ^ 5 = u ^ 12 := by
  rw [← Real.rpow_natCast, ← Real.rpow_mul hu]
  have e : (2.4 : ℝ) * ((5 : ℕ) : ℝ) = ((12 : ℕ) : ℝ) := by norm_num
  rw [e, Real.rpow_natCast]

theorem rpow24_rpow_inv24 (u : ℝ) (hu : 0 ≤ u) : (u ^ (2.4 : ℝ)) ^ (1 / 2.4 : ℝ) = u := by
  rw [← Real.rpow_mul hu]
  have e : (2.4 : ℝ) * (1 / 2.4) = 1 := by norm_num
  rw [e, Real.rpow_one]

theorem rpow_inv24_rpow24 (x : ℝ) (hx : 0 ≤ x) : (x ^ (1 / 2.4 : ℝ)) ^ (2.4 : ℝ) = x := by
  rw [← Real.rpow_mul hx]
  have e : (1 / 2.4 : ℝ) * 2.4 = 1 := by norm_num
  rw [e, Real.rpow_one]

/-- The power branch of `removeSRGBCurve` at the breakpoint `0.04045` lies
between `0.003130807` and `0.003130808`. -/
theorem breakpoint_power_bounds :
    (0.003130807 : ℝ) < ((0.04045 + 0.055) / 1.055) ^ (2.4 : ℝ) ∧
    ((0.04045 + 0.055) / 1.055) ^ (2.4 : ℝ) < (0.003130808 : ℝ) := by
  have hy : (0 : ℝ) ≤ (0.04045 + 0.055) / 1.055 := by norm_num
  have h5 := rpow24_pow5 _ hy
  have hn := Real.rpow_nonneg hy (2.4 : ℝ)
  constructor
  · by_contra h
    have h' := pow_le_pow_left₀ hn (not_lt.mp h) 5
    rw [h5] at h'
    norm_num at h'
  · by_contra h
    have h' := pow_le_pow_left₀ (by norm_num : (0 : ℝ) ≤ 0.003130808) (not_lt.mp h) 5
    rw [h5] at h'
    norm_num at h'

theorem linear_below_power_piece (p q c : ℝ) (hp : 0 ≤ p) (h1 : p ≤ c) (h2 : c ≤ q)
    (hn : (q / 12.92) ^ 5 < ((p + 0.055) / 1.055) ^ 12) :
    (c / 12.92) ^ 5 < ((c + 0.055) / 1.055) ^ 12 := by
  have hc : 0 ≤ c := le_trans hp h1
  have a1 : (c / 12.92) ^ 5 ≤ (q / 12.92) ^ 5 :=
    pow_le_pow_left₀ (by positivity) (by linarith [div_le_div_of_nonneg_right h2 (by norm_num : (0 : ℝ) ≤ 12.92)]) 5
  have a2 : ((p + 0.055) / 1.055) ^ 12 ≤ ((c + 0.055) / 1.055) ^ 12 :=
    pow_le_pow_left₀ (by positivity)
      (div_le_div_of_nonneg_right (by linarith) (by norm_num : (0 : ℝ) ≤ 1.055)) 12
  linarith

/-- Between the image of the breakpoint `0.0031308` and the breakpoint `0.04045`,
the linear branch of `removeSRGBCurve` stays strictly below its power branch. -/
theorem linear_below_power (c : ℝ) (h1 : 0.0031308 * 12.92 < c) (h2 : c ≤ 0.04045) :
    (c / 12.92) ^ 5 < ((c + 0.055) / 1.055) ^ 12 := by
  rcases le_total c 0.040449958 with h | h
  · exact linear_below_power_piece (0.0031308 * 12.92) 0.040449958 c (by norm_num) h1.le h
      (by norm_num)
  · rcases le_total c 0.04044998 with h' | h'
    · exact linear_below_power_piece 0.040449958 0.04044998 c (by norm_num) h h' (by norm_num)
    · exact linear_below_power_piece 0.04044998 0.04045 c (by norm_num) h' h2 (by norm_num)

theorem power_below_linear_piece (p q c : ℝ) (hp : 0 ≤ p) (h1 : p ≤ c) (h2 : c ≤ q)
    (hn : q ^ 5 < ((p * 12.92 + 0.055) / 1.055) ^ 12) :
    c ^ 5 < ((c * 12.92 + 0.055) / 1.055) ^ 12 := by
  have hc : 0 ≤ c := le_trans hp h1
  have a1 : c ^ 5 ≤ q ^ 5 := pow_le_pow_left₀ hc h2 5
  have a2 : ((p * 12.92 + 0.055) / 1.055) ^ 12 ≤ ((c * 12.92 + 0.055) / 1.055) ^ 12 :=
    pow_le_pow_left₀ (by positivity)
      (div_le_div_of_nonneg_right (by linarith) (by norm_num : (0 : ℝ) ≤ 1.055)) 12
  linarith

theorem power_below_linear (c : ℝ) (h1 : 0.0031308 < c) (h2 : c ≤ 0.003130808) :
    c ^ 5 < ((c * 12.92 + 0.055) / 1.055) ^ 12 := by
  rcases le_total c 0.003130802 with h | h
  · exact power_below_linear_piece 0.0031308 0.003130802 c (by norm_num) h1.le h (by norm_num)
  · rcases le_total c 0.003130804 with h' | h'
    · exact power_below_linear_piece 0.003130802 0.003130804 c (by norm_num) h h' (by norm_num)
    · rcases le_total c 0.003130806 with h'' | h''
      · exact power_below_linear_piece 0.003130804 0.003130806 c (by norm_num) h' h''
          (by norm_num)
      · exact power_below_linear_piece 0.003130806 0.003130808 c (by norm_num) h'' h2
          (by norm_num)

theorem apply_remove_iff (c : ℝ) :
    applySRGBCurveExact (removeSRGBCurveExact c) = c ↔
      (c ≤ 0.0031308 * 12.92 ∨ 0.04045 < c) := by
  constructor
  · intro h
    by_contra hg
    simp only [not_or, not_le, not_lt] at hg
    obtain ⟨g1, g2⟩ := hg
    have hr : removeSRGBCurveExact c = c / 12.92 := by
      unfold removeSRGBCurveExact; rw [if_pos g2]
    have hb : ¬ (c / 12.92 ≤ 0.0031308) := by
      rw [not_le, lt_div_iff₀ (by norm_num)]; exact g1
    rw [hr] at h
    unfold applySRGBCurveExact at h
    rw [if_neg hb] at h
    have hc : (0 : ℝ) ≤ c / 12.92 := by
      have : (0 : ℝ) < c := lt_trans (by norm_num) g1
      positivity
    have e : (c / 12.92) ^ (1 / 2.4 : ℝ) = (c + 0.055) / 1.055 := by
      field_simp
      linarith
    have e2 := rpow_inv24_pow12 _ hc
    rw [e] at e2
    have := linear_below_power c g1 g2
    linarith
  · rintro (h | h)
    · have g2 : c ≤ 0.04045 := le_trans h (by norm_num)
      have hb : c / 12.92 ≤ 0.0031308 := by
        rw [div_le_iff₀ (by norm_num)]; exact h
      unfold removeSRGBCurveExact applySRGBCurveExact
      rw [if_pos g2, if_pos hb]
      field_simp
    · have hy : (0 : ℝ) ≤ (0.04045 + 0.055) / 1.055 := by norm_num
      have hu : (0.04045 + 0.055) / 1.055 < (c + 0.055) / 1.055 :=
        div_lt_div_of_pos_right (by linarith) (by norm_num)
      have hu0 : 0 ≤ (c + 0.055) / 1.055 := le_trans hy hu.le
      have hp : ((0.04045 + 0.055) / 1.055) ^ (2.4 : ℝ) < ((c + 0.055) / 1.055) ^ (2.4 : ℝ) :=
        Real.rpow_lt_rpow hy hu (by norm_num)
      have hb : ¬ (((c + 0.055) / 1.055) ^ (2.4 : ℝ) ≤ 0.0031308) := by
        rw [not_le]; exact lt_trans (lt_trans (by norm_num) breakpoint_power_bounds.1) hp
      unfold removeSRGBCurveExact applySRGBCurveExact
      rw [if_neg (not_le.mpr h), if_neg hb, rpow24_rpow_inv24 _ hu0]
      field_simp

theorem remove_apply_iff (c : ℝ) :
    removeSRGBCurveExact (applySRGBCurveExact c) = c ↔
      (c ≤ 0.0031308 ∨ ((0.04045 + 0.055) / 1.055) ^ (2.4 : ℝ) < c) := by
  have hy : (0 : ℝ) ≤ (0.04045 + 0.055) / 1.055 := by norm_num
  constructor
  · intro h
    by_contra hg
    simp only [not_or, not_le, not_lt] at hg
    obtain ⟨g1, g2⟩ := hg
    have hc : (0 : ℝ) ≤ c := le_trans (by norm_num) g1.le
    have ha : applySRGBCurveExact c = 1.055 * c ^ (1 / 2.4 : ℝ) - 0.055 := by
      unfold applySRGBCurveExact; rw [if_neg (not_le.mpr g1)]
    have hle : c ^ (1 / 2.4 : ℝ) ≤ (0.04045 + 0.055) / 1.055 := by
      have := Real.rpow_le_rpow hc g2 (by norm_num : (0 : ℝ) ≤ 1 / 2.4)
      rwa [rpow24_rpow_inv24 _ hy] at this
    have hb : 1.055 * c ^ (1 / 2.4 : ℝ) - 0.055 ≤ 0.04045 := by
      have := mul_le_mul_of_nonneg_left hle (by norm_num : (0 : ℝ) ≤ 1.055)
      have e : (1.055 : ℝ) * ((0.04045 + 0.055) / 1.055) = 0.04045 + 0.055 := by norm_num
      linarith
    rw [ha] at h
    unfold removeSRGBCurveExact at h
    rw [if_pos hb] at h
    have e : c ^ (1 / 2.4 : ℝ) = (c * 12.92 + 0.055) / 1.055 := by
      field_simp at h ⊢
      linarith
    have e2 := rpow_inv24_pow12 _ hc
    rw [e] at e2
    have := power_below_linear c g1 (le_trans g2 breakpoint_power_bounds.2.le)
    linarith
  · rintro (h | h)
    · have hb : c * 12.92 ≤ 0.04045 := by linarith
      unfold applySRGBCurveExact removeSRGBCurveExact
      rw [if_pos h, if_pos hb]
      field_simp
    · have g1 : 0.0031308 < c := lt_trans (lt_trans (by norm_num) breakpoint_power_bounds.1) h
      have hc : (0 : ℝ) ≤ c := le_trans (by norm_num) g1.le
      have hn := Real.rpow_nonneg hy (2.4 : ℝ)
      have hlt : (0.04045 + 0.055) / 1.055 < c ^ (1 / 2.4 : ℝ) := by
        have := Real.rpow_lt_rpow hn h (by norm_num : (0 : ℝ) < 1 / 2.4)
        rwa [rpow24_rpow_inv24 _ hy] at this
      have hb : ¬ (1.055 * c ^ (1 / 2.4 : ℝ) - 0.055 ≤ 0.04045) := by
        rw [not_le]
        have := mul_lt_mul_of_pos_left hlt (by norm_num : (0 : ℝ) < 1.055)
        have e : (1.055 : ℝ) * ((0.04045 + 0.055) / 1.055) = 0.04045 + 0.055 := by norm_num
        linarith
      unfold applySRGBCurveExact removeSRGBCurveExact
      rw [if_neg (not_le.mpr g1), if_neg hb]
      have e : (1.055 * c ^ (1 / 2.4 : ℝ) - 0.055 + 0.055) / 1.055 = c ^ (1 / 2.4 : ℝ) := by
        field_simp
      rw [e, rpow_inv24_rpow24 _ hc]

theorem apply_remove_gap (c : ℝ) (g1 : 0.0031308 * 12.92 < c) (g2 : c ≤ 0.04045) :
    applySRGBCurveExact (removeSRGBCurveExact c)
      = 1.055 * (c / 12.92) ^ (1 / 2.4 : ℝ) - 0.055 := by
  have hb : ¬ (c / 12.92 ≤ 0.0031308) := by
    rw [not_le, lt_div_iff₀ (by norm_num)]; exact g1
  unfold removeSRGBCurveExact applySRGBCurveExact
  rw [if_pos g2, if_neg hb]

theorem rpow_inv24_le_breakpoint (c : ℝ) (hc : 0 ≤ c)
    (g2 : c ≤ ((0.04045 + 0.055) / 1.055) ^ (2.4 : ℝ)) :
    c ^ (1 / 2.4 : ℝ) ≤ (0.04045 + 0.055) / 1.055 := by
  have hy : (0 : ℝ) ≤ (0.04045 + 0.055) / 1.055 := by norm_num
  have := Real.rpow_le_rpow hc g2 (by norm_num : (0 : ℝ) ≤ 1 / 2.4)
  rwa [rpow24_rpow_inv24 _ hy] at this

theorem remove_apply_gap (c : ℝ) (g1 : 0.0031308 < c)
    (g2 : c ≤ ((0.04045 + 0.055) / 1.055) ^ (2.4 : ℝ)) :
    removeSRGBCurveExact (applySRGBCurveExact c)
      = (1.055 * c ^ (1 / 2.4 : ℝ) - 0.055) / 12.92 := by
  have hc : (0 : ℝ) ≤ c := le_trans (by norm_num) g1.le
  have hle := rpow_inv24_le_breakpoint c hc g2
  have hb : 1.055 * c ^ (1 / 2.4 : ℝ) - 0.055 ≤ 0.04045 := by
    have := mul_le_mul_of_nonneg_left hle (by norm_num : (0 : ℝ) ≤ 1.055)
    have e : (1.055 : ℝ) * ((0.04045 + 0.055) / 1.055) = 0.04045 + 0.055 := by norm_num
    linarith
  unfold applySRGBCurveExact removeSRGBCurveExact
  rw [if_neg (not_le.mpr g1), if_pos hb]

/-- Above the breakpoint `0.0031308` the root `c ^ (1 / 2.4)` is at least
`0.09047384`. -/
theorem rpow_inv24_lower (c : ℝ) (g1 : 0.0031308 ≤ c) : 0.09047384 ≤ c ^ (1 / 2.4 : ℝ) := by
  have h0 : (0 : ℝ) ≤ 0.0031308 := by norm_num
  have h1 : (0.0031308 : ℝ) ^ (1 / 2.4 : ℝ) ≤ c ^ (1 / 2.4 : ℝ) :=
    Real.rpow_le_rpow h0 g1 (by norm_num)
  have h2 : (0.09047384 : ℝ) ≤ (0.0031308 : ℝ) ^ (1 / 2.4 : ℝ) := by
    by_contra h
    have hn := Real.rpow_nonneg h0 (1 / 2.4 : ℝ)
    have h' := pow_le_pow_left₀ hn (not_le.mp h).le 12
    rw [rpow_inv24_pow12 _ h0] at h'
    norm_num at h'
  exact le_trans h2 h1

theorem apply_remove_near (c : ℝ) :
    |applySRGBCurveExact (removeSRGBCurveExact c) - c| ≤ 0.0000001 := by
  by_cases h : c ≤ 0.0031308 * 12.92 ∨ 0.04045 < c
  · rw [(apply_remove_iff c).mpr h, sub_self, abs_zero]; norm_num
  · simp only [not_or, not_le, not_lt] at h
    obtain ⟨g1, g2⟩ := h
    rw [apply_remove_gap c g1 g2]
    have hr : (0.0031308 : ℝ) ≤ c / 12.92 := by
      rw [le_div_iff₀ (by norm_num)]; exact g1.le
    have hr0 : (0 : ℝ) ≤ c / 12.92 := le_trans (by norm_num) hr
    have lo := rpow_inv24_lower _ hr
    have hi : (c / 12.92) ^ (1 / 2.4 : ℝ) ≤ (0.04045 + 0.055) / 1.055 := by
      apply rpow_inv24_le_breakpoint _ hr0
      have : c / 12.92 ≤ 0.003130805 := by
        rw [div_le_iff₀ (by norm_num)]; linarith
      exact le_trans this (le_trans (by norm_num) breakpoint_power_bounds.1.le)
    have e : (1.055 : ℝ) * ((0.04045 + 0.055) / 1.055) = 0.04045 + 0.055 := by norm_num
    have hi' := mul_le_mul_of_nonneg_left hi (by norm_num : (0 : ℝ) ≤ 1.055)
    have lo' := mul_le_mul_of_nonneg_left lo (by norm_num : (0 : ℝ) ≤ 1.055)
    rw [abs_le]
    constructor <;> linarith

theorem remove_apply_near (c : ℝ) :
    |removeSRGBCurveExact (applySRGBCurveExact c) - c| ≤ 0.0000001 := by
  by_cases h : c ≤ 0.0031308 ∨ ((0.04045 + 0.055) / 1.055) ^ (2.4 : ℝ) < c
  · rw [(remove_apply_iff c).mpr h, sub_self, abs_zero]; norm_num
  · simp only [not_or, not_le, not_lt] at h
    obtain ⟨g1, g2⟩ := h
    rw [remove_apply_gap c g1 g2]
    have hc : (0 : ℝ) ≤ c := le_trans (by norm_num) g1.le
    have lo := rpow_inv24_lower _ g1.le
    have hi := rpow_inv24_le_breakpoint c hc g2
    have e : (1.055 : ℝ) * ((0.04045 + 0.055) / 1.055) = 0.04045 + 0.055 := by norm_num
    have hi' := mul_le_mul_of_nonneg_left hi (by norm_num : (0 : ℝ) ≤ 1.055)
    have lo' := mul_le_mul_of_nonneg_left lo (by norm_num : (0 : ℝ) ≤ 1.055)
    have c2 : c ≤ 0.003130808 := le_trans g2 breakpoint_power_bounds.2.le
    rw [abs_le, le_sub_iff_add_le, sub_le_iff_le_add, le_div_iff₀ (by norm_num),
      div_le_iff₀ (by norm_num)]
    constructor <;> linarith

theorem remove_apply_double (pow : F64 → F64 → F64) :
    removeSRGBCurve pow (applySRGBCurve pow (lit 1 4)) = ⟨false, 1009, 2875098002113324⟩ := by
  have h1 : F64.le (lit 1 4) (lit 31308 7) = true := by decide!
  have h2 : F64.le (F64.mul (lit 1 4) (lit 1292 2)) (lit 4045 5) = true := by decide!
  have h3 : F64.div (F64.mul (lit 1 4) (lit 1292 2)) (lit 1292 2)
      = ⟨false, 1009, 2875098002113324⟩ := by decide!
  rw [applySRGBCurve, if_pos h1, removeSRGBCurve, if_pos h2, h3]

theorem apply_remove_double (pow : F64 → F64 → F64) :
    applySRGBCurve pow (removeSRGBCurve pow (lit 43 5)) = ⟨false, 1011, 3428500324324612⟩ := by
  have h1 : F64.le (lit 43 5) (lit 4045 5) = true := by decide!
  have h2 : F64.le (F64.div (lit 43 5) (lit 1292 2)) (lit 31308 7) = true := by decide!
  have h3 : F64.mul (F64.div (lit 43 5) (lit 1292 2)) (lit 1292 2)
      = ⟨false, 1011, 3428500324324612⟩ := by decide!
  rw [removeSRGBCurve, if_pos h1, applySRGBCurve, if_pos h2, h3]

/-- C8 (as stated, refuted): in exact real arithmetic the round trips miss their
argument next to the breakpoints: `apply(remove(0.04045)) ≠ 0.04045` and
`remove(apply(0.003130805)) ≠ 0.003130805`.  In `double` arithmetic they also
miss it by rounding on the linear segment, whatever the power function:
`remove(apply(0.0001))` is `9.999999999999999e-05`, one unit in the last place
below `0.0001`, and `apply(remove(0.00043))` is one unit in the last place above
`0.00043`; neither compares equal to its argument. -/
theorem srgb_curves_not_inverse :
    applySRGBCurveExact (removeSRGBCurveExact 0.04045) ≠ 0.04045 ∧
    removeSRGBCurveExact (applySRGBCurveExact 0.003130805) ≠ 0.003130805 ∧
    lit 1 4 = ⟨false, 1009, 2875098002113325⟩ ∧
    (∀ pow : F64 → F64 → F64,
      removeSRGBCurve pow (applySRGBCurve pow (lit 1 4)) = ⟨false, 1009, 2875098002113324⟩ ∧
      F64.eq (removeSRGBCurve pow (applySRGBCurve pow (lit 1 4))) (lit 1 4) = false) ∧
    lit 43 5 = ⟨false, 1011, 3428500324324611⟩ ∧
    (∀ pow : F64 → F64 → F64,
      applySRGBCurve pow (removeSRGBCurve pow (lit 43 5)) = ⟨false, 1011, 3428500324324612⟩ ∧
      F64.eq (applySRGBCurve pow (removeSRGBCurve pow (lit 43 5))) (lit 43 5) = false) := by
  refine ⟨?_, ?_, by decide!, ?_, by decide!, ?_⟩
  · intro h
    rcases (apply_remove_iff 0.04045).mp h with h' | h' <;> norm_num at h'
  · intro h
    rcases (remove_apply_iff 0.003130805).mp h with h' | h'
    · norm_num at h'
    · have := lt_trans breakpoint_power_bounds.1 h'
      norm_num at this
  · intro pow
    refine ⟨remove_apply_double pow, ?_⟩
    rw [remove_apply_double pow]
    decide!
  · intro pow
    refine ⟨apply_remove_double pow, ?_⟩
    rw [apply_remove_double pow]
    decide!

/-- C8 (amended): in exact real arithmetic, with `remove` and `apply` the spec's
formulas, `apply(remove(c)) = c` holds exactly for the channel values `c` with
`c ≤ 0.0031308 * 12.92` (= 0.040449936) or `c > 0.04045`, and
`remove(apply(c)) = c` holds exactly for the `c` with `c ≤ 0.0031308` or
`c > ((0.04045 + 0.055) / 1.055) ^ 2.4`, a bound that lies between `0.003130807`
and `0.003130808`.  So the two curves are mutual inverses on both branches,
except on the two short intervals next to the breakpoints where the linear and
the power branch do not meet; there, as everywhere, both round trips stay
within `10^-7` of `c`. -/
theorem srgb_curves_inverse_exact (c : ℝ) :
    (applySRGBCurveExact (removeSRGBCurveExact c) = c ↔
      (c ≤ 0.0031308 * 12.92 ∨ 0.04045 < c)) ∧
    (removeSRGBCurveExact (applySRGBCurveExact c) = c ↔
      (c ≤ 0.0031308 ∨ ((0.04045 + 0.055) / 1.055) ^ (2.4 : ℝ) < c)) ∧
    (0.003130807 : ℝ) < ((0.04045 + 0.055) / 1.055) ^ (2.4 : ℝ) ∧
    ((0.04045 + 0.055) / 1.055) ^ (2.4 : ℝ) < (0.003130808 : ℝ) ∧
    |applySRGBCurveExact (removeSRGBCurveExact c) - c| ≤ 0.0000001 ∧
    |removeSRGBCurveExact (applySRGBCurveExact c) - c| ≤ 0.0000001 :=
  ⟨apply_remove_iff c, remove_apply_iff c, breakpoint_power_bounds.1, breakpoint_power_bounds.2,
    apply_remove_near c, remove_apply_near c⟩

/-- Witness for C8 (amended): the round trips hold at `0.5` (power branch) and at
`0.001` (linear segment). -/
theorem srgb_curves_inverse_exact_witness :
    applySRGBCurveExact (removeSRGBCurveExact 0.5) = 0.5 ∧
    removeSRGBCurveExact (applySRGBCurveExact 0.5) = 0.5 ∧
    applySRGBCurveExact (removeSRGBCurveExact 0.001) = 0.001 ∧
    removeSRGBCurveExact (applySRGBCurveExact 0.001) = 0.001 :=
  ⟨(srgb_curves_inverse_exact 0.5).1.mpr (Or.inr (by norm_num)),
   (srgb_curves_inverse_exact 0.5).2.1.mpr
     (Or.inr (lt_trans (srgb_curves_inverse_exact 0.5).2.2.2.1 (by norm_num))),
   (srgb_curves_inverse_exact 0.001).1.mpr (Or.inl (by norm_num)),
   (srgb_curves_inverse_exact 0.001).2.1.mpr (Or.inl (by norm_num))⟩

end SRGB

end SivOklab
